import Mathlib

/-!
Verification of the torsynth relay-network scaling tool against its
natural-language specification.  The Rust sources are shallowly embedded:
pure functions become Lean functions, `u64`/`i64` arithmetic becomes
`Nat`/`Int` with Rust's truncating division (`Int.tdiv`) and wrapping
casts made explicit, fallible code returns `Option`/`Except`.
-/

namespace Torsynth

/-! ## Data model (src/parser/consensus.rs, src/highlevel/containers.rs) -/

/-- Relay flags from the consensus (src/parser/consensus.rs, `enum Flag`). -/
inductive Flag
  | Authority
  | BadExit
  | Exit
  | Fast
  | Guard
  | HSDir
  | NoEdConsensus
  | Running
  | Stable
  | StaleDesc
  | Sybil
  | V2Dir
  | Valid
deriving DecidableEq, Repr

/-- A relay fingerprint: an opaque byte blob (src/parser/meta.rs,
`struct Fingerprint { blob: Vec<u8> }`).  Bytes are `Nat` values `< 256`. -/
structure Fingerprint where
  blob : List Nat
deriving DecidableEq, Repr

/-- A Tor sub-protocol (src/parser/consensus.rs, `enum Protocol`). -/
inductive Protocol
  | Cons
  | Desc
  | DirCache
  | FlowCtrl
  | HSDir
  | HSIntro
  | HSRend
  | Link
  | LinkAuth
  | Microdesc
  | Padding
  | Relay
deriving DecidableEq, Repr

/-- A range of supported protocol versions (src/parser/consensus.rs,
`struct SupportedProtocolVersion { versions: Vec<u8> }`). -/
structure SupportedProtocolVersion where
  versions : List Nat
deriving DecidableEq, Repr

/-- Exit policy type (src/parser/consensus.rs, `enum PolicyType`). -/
inductive PolicyType
  | Accept
  | Reject
deriving DecidableEq, Repr

/-- Exit port entry (src/parser/consensus.rs, `enum PolicyEntry`). -/
inductive PolicyEntry
  | SinglePort (port : Nat)
  | PortRange (min max : Nat)
deriving DecidableEq, Repr

/-- A relay's condensed exit policy (src/parser/consensus.rs,
`struct CondensedExitPolicy`). -/
structure CondensedExitPolicy where
  policy_type : PolicyType
  entries : List PolicyEntry
deriving DecidableEq, Repr

/-- A family declaration entry (src/parser/descriptor.rs,
`enum FamilyMember`). -/
inductive FamilyMember
  | ByFingerprint (fp : Fingerprint)
  | ByNickname (nickname : String)
deriving DecidableEq, Repr

/-- A relay entry of the consensus document (src/parser/consensus.rs,
`struct ShallowRelay`).  Timestamps are seconds since the Unix epoch. -/
structure ShallowRelay where
  nickname : String
  fingerprint : Fingerprint
  digest : Fingerprint
  published : Int
  address : Nat
  or_port : Nat
  dir_port : Option Nat
  flags : List Flag
  version_line : String
  protocols : List (Protocol × SupportedProtocolVersion)
  exit_policy : CondensedExitPolicy
  bandwidth_weight : Nat
deriving DecidableEq, Repr

/-- A relay server descriptor (src/parser/descriptor.rs,
`struct Descriptor`). -/
structure Descriptor where
  nickname : String
  fingerprint : Fingerprint
  digest : Fingerprint
  published : Int
  family_members : List FamilyMember
  bandwidth_avg : Nat
  bandwidth_burst : Nat
  bandwidth_observed : Nat
deriving DecidableEq, Repr

/-- A joined relay (src/highlevel/containers.rs, `struct Relay`).  The three
`f32` bandwidth-ratio fields of the Rust struct are floating-point values and
are not represented; none of the verified claims depends on them.  The
`family` field holds the `Rc<Family>` reference, modelled as an identifier
standing for the pointer identity of the shared family object; the `asn`
field likewise holds the referenced AS number. -/
structure Relay where
  nickname : String
  fingerprint : Fingerprint
  digest : Fingerprint
  published : Int
  address : Nat
  asn : Option Nat
  or_port : Nat
  dir_port : Option Nat
  flags : List Flag
  version_line : String
  protocols : List (Protocol × SupportedProtocolVersion)
  exit_policy : CondensedExitPolicy
  bandwidth_weight : Nat
  family : Option Nat
  bw_observed_was_zero : Bool
deriving DecidableEq, Repr

/-- `Relay::has_flag` (src/highlevel/containers.rs). -/
def Relay.hasFlag (r : Relay) (f : Flag) : Bool :=
  r.flags.contains f

/-- A consensus after joining (src/highlevel/containers.rs,
`struct Consensus`).  The `RHashMap<Fingerprint, Relay>` is modelled as an
association list (first binding wins on lookup, insertion replaces in place
or appends); `weights` is the `BTreeMap<String, u64>` as a key-sorted
association list.  The derived `f32` statistics (`prob_family`,
`prob_family_sameas`) are floating-point and not represented. -/
structure Consensus where
  valid_after : Int
  weights : List (String × Nat)
  relays : List (Fingerprint × Relay)
  family_sizes : List (Nat × Nat)
deriving DecidableEq, Repr

/-- Lookup in an association list modelling `RHashMap` (a map never holds a
key twice, so the first binding is the binding). -/
def alistLookup {α β : Type} [DecidableEq α] : List (α × β) → α → Option β
  | [], _ => none
  | (k, v) :: rest, key => if k = key then some v else alistLookup rest key

/-- `HashMap::insert`: replace the binding if the key is present, otherwise
append the new binding. -/
def alistInsert {α β : Type} [DecidableEq α] : List (α × β) → α → β → List (α × β)
  | [], key, val => [(key, val)]
  | (k, v) :: rest, key, val =>
    if k = key then (key, val) :: rest else (k, v) :: alistInsert rest key val

/-- `HashMap::remove`: drop the binding of the key, if present. -/
def alistRemove {α β : Type} [DecidableEq α] : List (α × β) → α → List (α × β)
  | [], _ => []
  | (k, v) :: rest, key => if k = key then rest else (k, v) :: alistRemove rest key

/-! ## Joining consensus and descriptors (src/highlevel/containers.rs) -/

/-- `Relay::from_consensus_entry_and_descriptor`
(src/highlevel/containers.rs lines 76-104).  Every consensus field is taken
from the consensus entry — in particular `fingerprint` — while the AS is
looked up from the address and `bw_observed_was_zero` comes from the
descriptor.  The `f32` ratio fields are not represented. -/
def Relay.fromConsensusEntryAndDescriptor (cons_relay : ShallowRelay) (descriptor : Descriptor)
    (asnLookup : Nat → Option Nat) : Relay :=
  { nickname := cons_relay.nickname
    fingerprint := cons_relay.fingerprint
    digest := cons_relay.digest
    published := cons_relay.published
    address := cons_relay.address
    asn := asnLookup cons_relay.address
    or_port := cons_relay.or_port
    dir_port := cons_relay.dir_port
    flags := cons_relay.flags
    version_line := cons_relay.version_line
    protocols := cons_relay.protocols
    exit_policy := cons_relay.exit_policy
    bandwidth_weight := cons_relay.bandwidth_weight
    family := none
    bw_observed_was_zero := descriptor.bandwidth_observed == 0 }

/-- The descriptor index built at the top of `Consensus::combine_documents`
(src/highlevel/containers.rs lines 120-123): descriptors keyed by their
body digest; on duplicate digests the later descriptor wins, as with
`collect` into a hash map. -/
def descIndex (descriptors : List Descriptor) : List (Fingerprint × Descriptor) :=
  descriptors.foldl (fun m d => alistInsert m d.digest d) []

/-- The relay-map construction loop of `Consensus::combine_documents`
(src/highlevel/containers.rs lines 169-191): for each consensus relay, pop
its descriptor by digest (error = `MissingDescriptor` carrying the digest)
and insert the joined relay keyed by the *descriptor's* fingerprint. -/
def combineRelayLoop (asnLookup : Nat → Option Nat) :
    List ShallowRelay → List (Fingerprint × Descriptor) → List (Fingerprint × Relay) →
    Except Fingerprint (List (Fingerprint × Relay))
  | [], _, relays => Except.ok relays
  | relay :: rest, descriptors, relays =>
    match alistLookup descriptors relay.digest with
    | none => Except.error relay.digest
    | some descriptor =>
      combineRelayLoop asnLookup rest (alistRemove descriptors relay.digest)
        (alistInsert relays descriptor.fingerprint
          (Relay.fromConsensusEntryAndDescriptor relay descriptor asnLookup))

/-- The family wiring loop of `Consensus::combine_documents`
(src/highlevel/containers.rs lines 201-204): every relay's `family` is set
to `family_cliques[fp]`, indexing the cliques map by the relay-map key.
Indexing a missing key panics (`none`). -/
def wireFamilies (cliques : List (Fingerprint × Option Nat)) :
    List (Fingerprint × Relay) → Option (List (Fingerprint × Relay))
  | [] => some []
  | (fp, r) :: rest =>
    match alistLookup cliques fp with
    | none => none
    | some fam => (wireFamilies cliques rest).map (fun rest' => (fp, { r with family := fam }) :: rest')

/-- The relays map produced by `Consensus::combine_documents`
(src/highlevel/containers.rs lines 114-240), restricted to the fields the
key invariant concerns.  `cliques` stands for the result of
`clean_families` + `make_cliques`; those functions only decide the `family`
values and their key set is the set of consensus fingerprints, so the map is
taken as a parameter here.  The outer `Option` is a panic (missing cliques
key), the `Except` a `MissingDescriptor` error. -/
def combineDocuments (consRelays : List ShallowRelay) (descriptors : List Descriptor)
    (asnLookup : Nat → Option Nat) (cliques : List (Fingerprint × Option Nat)) :
    Option (Except Fingerprint (List (Fingerprint × Relay))) :=
  match combineRelayLoop asnLookup consRelays (descIndex descriptors) [] with
  | Except.error d => some (Except.error d)
  | Except.ok relays =>
    match wireFamilies cliques relays with
    | none => none
    | some relays' => some (Except.ok relays')

/-- Invariant (I1): every entry of the relays map stores a relay whose
`fingerprint` field equals the map key. -/
def invariantHolds (relays : List (Fingerprint × Relay)) : Bool :=
  relays.all (fun p => p.2.fingerprint == p.1)

/-- The relay-insertion loop at the end of `scale_horizontally`
(src/highlevel/scale.rs lines 229-231): each new relay is inserted keyed by
its own fingerprint. -/
def insertNewRelays (relays : List (Fingerprint × Relay)) (newRelays : List Relay) :
    List (Fingerprint × Relay) :=
  newRelays.foldl (fun m r => alistInsert m r.fingerprint r) relays

/-- `Consensus::remove_relays_by`'s retain step
(src/highlevel/containers.rs line 327): keep exactly the relays failing the
predicate. -/
def retainRelays (condition : Relay → Bool) (relays : List (Fingerprint × Relay)) :
    List (Fingerprint × Relay) :=
  relays.filter (fun p => !(condition p.2))

/-! ## Bandwidth-weight solver (src/writer/mod.rs) -/

/-- One step of the class-sum loop of `recompute_bw_weights`
(src/writer/mod.rs lines 20-31).  The accumulator is `(E, G, D, M)`.
The Rust `else if` chain tests `relay.has_flag(Flag::Guard)` twice, so its
final `M += …` arm is unreachable; the embedding reproduces that chain
verbatim. -/
def bwClassStep (acc : Int × Int × Int × Int) (r : Relay) : Int × Int × Int × Int :=
  let E := acc.1
  let G := acc.2.1
  let D := acc.2.2.1
  let M := acc.2.2.2
  let is_exit := r.hasFlag Flag.Exit && !(r.hasFlag Flag.BadExit)
  if is_exit && r.hasFlag Flag.Guard then
    (E, G, D + (r.bandwidth_weight : Int), M)
  else if is_exit then
    (E + (r.bandwidth_weight : Int), G, D, M)
  else if r.hasFlag Flag.Guard then
    (E, G + (r.bandwidth_weight : Int), D, M)
  else if r.hasFlag Flag.Guard then
    (E, G, D, M + (r.bandwidth_weight : Int))
  else
    (E, G, D, M)

/-- The class sums `(E, G, D, M)` that `recompute_bw_weights` computes.
Each accumulator starts at `1` (src/writer/mod.rs lines 16-19). -/
def bwClassSums (relays : List Relay) : Int × Int × Int × Int :=
  relays.foldl bwClassStep (1, 1, 1, 1)

/-- Modelled from the spec (§4.F): `G` = Guard∧¬Exit, `E` = Exit∧¬Guard∧
¬BadExit, `D` = Exit∧Guard∧¬BadExit, `M` = none of the above, each a sum of
`bandwidth_weight` floored at 1.  Returned in the order `(E, G, D, M)` for
comparison with `bwClassSums`. -/
def specClassSums (relays : List Relay) : Int × Int × Int × Int :=
  let sumBy (p : Relay → Bool) : Int :=
    ((relays.filter p).map (fun r => (r.bandwidth_weight : Int))).sum
  let inG (r : Relay) : Bool := r.hasFlag Flag.Guard && !(r.hasFlag Flag.Exit)
  let inE (r : Relay) : Bool :=
    r.hasFlag Flag.Exit && !(r.hasFlag Flag.Guard) && !(r.hasFlag Flag.BadExit)
  let inD (r : Relay) : Bool :=
    r.hasFlag Flag.Exit && r.hasFlag Flag.Guard && !(r.hasFlag Flag.BadExit)
  (max 1 (sumBy inE), max 1 (sumBy inG), max 1 (sumBy inD),
    max 1 (sumBy (fun r => !(inG r) && !(inE r) && !(inD r))))

/-- `check_eq` (src/writer/mod.rs). -/
def check_eq (a b margin : Int) : Bool :=
  if (a - b) ≥ 0 then (a - b) ≤ margin else (b - a) ≤ margin

/-- `check_range` (src/writer/mod.rs). -/
def check_range (a b c d e f g mx : Int) : Bool :=
  a ≥ 0 && a ≤ mx && b ≥ 0 && b ≤ mx && c ≥ 0 && c ≤ mx && d ≥ 0 && d ≤ mx &&
  e ≥ 0 && e ≤ mx && f ≥ 0 && f ≤ mx && g ≥ 0 && g ≤ mx

/-- `enum BwwError` (src/writer/mod.rs). -/
inductive BwwError
  | SumD
  | SumG
  | SumE
  | Range
  | BalanceEg
  | BalanceMid
deriving DecidableEq, Repr

/-- `check_weights_errors` (src/writer/mod.rs). -/
def check_weights_errors (Wgg Wgd Wmg Wme Wmd Wee Wed weightscale G M E D T margin : Int)
    (do_balance : Bool) : Option BwwError :=
  if !(check_eq (Wed + Wmd + Wgd) weightscale margin) then some BwwError.SumD
  else if !(check_eq (Wmg + Wgg) weightscale margin) then some BwwError.SumG
  else if !(check_eq (Wme + Wee) weightscale margin) then some BwwError.SumE
  else if !(check_range Wgg Wgd Wmg Wme Wmd Wed Wee weightscale) then some BwwError.Range
  else if do_balance then
    if !(check_eq (Wgg * G + Wgd * D) (Wee * E + Wed * D) (Int.tdiv (margin * T) 3)) then
      some BwwError.BalanceEg
    else if !(check_eq (Wgg * G + Wgd * D) (M * weightscale + Wmd * D + Wme * E + Wmg * G)
        (Int.tdiv (margin * T) 3)) then
      some BwwError.BalanceMid
    else none
  else none

/-- The seven computed weights `(Wgg, Wgd, Wmg, Wme, Wmd, Wee, Wed)` of
`recompute_bw_weights` (src/writer/mod.rs), given the class sums.  All `i64`
divisions use Rust's truncating division `Int.tdiv`.  The `panic!` in the
case-2b validation is modelled as `none`. -/
def computeSevenWeights (E G D M : Int) : Option (Int × Int × Int × Int × Int × Int × Int) :=
  let T := E + G + D + M
  let weightscale : Int := 10000
  if 3 * E ≥ T ∧ 3 * G ≥ T then
    -- Case 1: Neither are scarce
    let Wmd := Int.tdiv weightscale 3
    let Wed := Int.tdiv weightscale 3
    let Wgd := Int.tdiv weightscale 3
    let Wee := Int.tdiv (weightscale * (E + G + M)) (3 * E)
    let Wme := weightscale - Wee
    let Wmg := Int.tdiv (weightscale * (2 * G - E - M)) (3 * G)
    let Wgg := weightscale - Wmg
    some (Wgg, Wgd, Wmg, Wme, Wmd, Wee, Wed)
  else if 3 * E < T ∧ 3 * G < T then
    -- Case 2: Both Guards and Exits are scarce
    let R := min E G
    let S := max E G
    if R + D < S then
      -- subcase a
      if E < G then some (weightscale, 0, 0, 0, 0, weightscale, weightscale)
      else some (weightscale, weightscale, 0, 0, 0, weightscale, 0)
    else
      -- subcase b, first try Case 2b1 (Wgg=weightscale, Wmd=Wgd)
      let Wee := Int.tdiv (weightscale * (E - G + M)) E
      let Wed := Int.tdiv (weightscale * (D - 2 * E + 4 * G - 2 * M)) (3 * D)
      let Wme := Int.tdiv (weightscale * (G - M)) E
      let Wmg : Int := 0
      let Wgg := weightscale
      let Wgd := Int.tdiv (weightscale - Wed) 2
      let Wmd := Int.tdiv (weightscale - Wed) 2
      let first := (Wgg, Wgd, Wmg, Wme, Wmd, Wee, Wed)
      let second :=
        -- Case 2b2 (Wgg=weightscale, Wee=weightscale), Wmd clamped at 0 (2b3)
        let Wee := weightscale
        let Wgg := weightscale
        let Wed := Int.tdiv (weightscale * (D - 2 * E + G + M)) (3 * D)
        let Wmd := Int.tdiv (weightscale * (D - 2 * M + G + E)) (3 * D)
        let Wmg : Int := 0
        let Wme : Int := 0
        let Wmd := if Wmd < 0 then 0 else Wmd
        let Wgd := weightscale - Wed - Wmd
        (Wgg, Wgd, Wmg, Wme, Wmd, Wee, Wed)
      let chosen :=
        match check_weights_errors Wgg Wgd Wmg Wme Wmd Wee Wed weightscale G M E D T 10 true with
        | some _ => second
        | none => first
      match chosen with
      | (Wgg, Wgd, Wmg, Wme, Wmd, Wee, Wed) =>
        match check_weights_errors Wgg Wgd Wmg Wme Wmd Wee Wed weightscale G M E D T 10 true with
        | none => some (Wgg, Wgd, Wmg, Wme, Wmd, Wee, Wed)
        | some BwwError.BalanceMid => some (Wgg, Wgd, Wmg, Wme, Wmd, Wee, Wed)
        | some _ => none  -- panic!("bw weight error")
  else
    -- Case 3: Guard or Exit is scarce
    let S := min E G
    if 3 * (S + D) < T then
      -- subcase a
      if G < E then
        let Wme := if E < M then 0 else Int.tdiv (weightscale * (E - M)) (2 * E)
        some (weightscale, weightscale, 0, Wme, 0, weightscale - Wme, 0)
      else
        let Wmg := if G < M then 0 else Int.tdiv (weightscale * (G - M)) (2 * G)
        some (weightscale - Wmg, 0, Wmg, 0, 0, weightscale, weightscale)
    else
      -- subcase b
      if G < E then
        let Wgg := weightscale
        let Wgd := Int.tdiv (weightscale * (D - 2 * G + E + M)) (3 * D)
        let Wee := Int.tdiv (weightscale * (E + M)) (2 * E)
        let Wme := weightscale - Wee
        let Wed := Int.tdiv (weightscale - Wgd) 2
        let Wmd := Int.tdiv (weightscale - Wgd) 2
        some (Wgg, Wgd, 0, Wme, Wmd, Wee, Wed)
      else
        let Wee := weightscale
        let Wed := Int.tdiv (weightscale * (D - 2 * E + G + M)) (3 * D)
        let Wgg := Int.tdiv (weightscale * (G + M)) (2 * G)
        let Wmg := weightscale - Wgg
        let Wgd := Int.tdiv (weightscale - Wed) 2
        let Wmd := Int.tdiv (weightscale - Wed) 2
        some (Wgg, Wgd, Wmg, 0, Wmd, Wee, Wed)

/-- Rust's `as u64` conversion from `i64`: wrap modulo `2^64`. -/
def toU64 (v : Int) : Nat :=
  (v % (2 ^ 64 : Int)).toNat

/-- The 19-entry `bandwidth-weights` map built at the end of
`recompute_bw_weights` (src/writer/mod.rs lines 194-218); the literal array
is already sorted by key, matching the `BTreeMap` order. -/
def bwWeightsMap (Wgg Wgd Wmg Wme Wmd Wee Wed : Int) : List (String × Nat) :=
  let weightscale : Int := 10000
  [("Wbd", toU64 Wmd), ("Wbe", toU64 Wme), ("Wbg", toU64 Wmg), ("Wbm", toU64 weightscale),
   ("Wdb", toU64 weightscale), ("Web", toU64 weightscale), ("Wed", toU64 Wed),
   ("Wee", toU64 Wee), ("Weg", toU64 Wed), ("Wem", toU64 Wee), ("Wgb", toU64 weightscale),
   ("Wgd", toU64 Wgd), ("Wgg", toU64 Wgg), ("Wgm", toU64 Wgg), ("Wmb", toU64 weightscale),
   ("Wmd", toU64 Wmd), ("Wme", toU64 Wme), ("Wmg", toU64 Wmg), ("Wmm", toU64 weightscale)]

/-- `recompute_bw_weights(consensus)` (src/writer/mod.rs): compute the class
sums, solve the casework, and replace `consensus.weights`.  `none` models the
`panic!` on a failed case-2b validation. -/
def recomputeBwWeights (c : Consensus) : Option Consensus :=
  match bwClassSums (c.relays.map Prod.snd) with
  | (E, G, D, M) =>
    match computeSevenWeights E G D M with
    | none => none
    | some (Wgg, Wgd, Wmg, Wme, Wmd, Wee, Wed) =>
      some { c with weights := bwWeightsMap Wgg Wgd Wmg Wme Wmd Wee Wed }

/-- `Consensus::verify_weights` (src/highlevel/containers.rs lines 308-322):
snapshot the old weights, recompute in place, and compare.  The result pairs
the mutated consensus with `Except.ok ()` on equality or the `(old, new)`
diagnostic pair on mismatch (the Rust error string is built from exactly
these two values). -/
def verifyWeights (c : Consensus) :
    Option (Consensus × Except (List (String × Nat) × List (String × Nat)) Unit) :=
  match recomputeBwWeights c with
  | none => none
  | some c' =>
    if c.weights = c'.weights then some (c', Except.ok ())
    else some (c', Except.error (c.weights, c'.weights))

/-! ## AS IP ranges (src/parser/asn.rs) -/

/-- `IpRange::len` (src/parser/asn.rs lines 103-106): the Rust code computes
`(32u32 - self.masklen).checked_pow(2).unwrap()`, i.e. the square of
`32 - masklen` (`checked_pow(2)` raises its receiver to the power 2; it
cannot overflow here, so the `unwrap` always succeeds). -/
def ipRangeLen (masklen : Nat) : Nat :=
  (32 - masklen) ^ 2

/-- Modelled from the spec (§3): the cardinality of a CIDR range with mask
length `m` is `2^(32-m)`. -/
def specRangeCardinality (masklen : Nat) : Nat :=
  2 ^ (32 - masklen)

/-- `IpRange::index` (src/parser/asn.rs lines 112-120): panics (`none`) when
`i ≥ self.len()` (the buggy length), else returns `base + i` where `base` is
the range's address as a `u32`. -/
def ipRangeIndex (base masklen i : Nat) : Option Nat :=
  if i ≥ ipRangeLen masklen then none else some (base + i)

/-- Membership of an address in the CIDR range `[base, base + 2^(32-m))`
(the range's true address set, for an aligned base). -/
def inIpRange (base masklen addr : Nat) : Bool :=
  base ≤ addr && addr < base + specRangeCardinality masklen

/-- `IpRange::sample_ip` (src/parser/asn.rs lines 130-136) draws
`i ∈ [0, len)` uniformly and returns `index(i)`.  The draw is modelled by
its outcome `i` together with the guard `i < ipRangeLen masklen` that
`gen_range(0..self.len())` guarantees. -/
def sampleIpOutcome (base masklen i : Nat) : Option Nat :=
  if i < ipRangeLen masklen then ipRangeIndex base masklen i else none

/-! ## Emitter valid-after line (src/highlevel/output.rs) -/

/-- The timestamp written on the `valid-after` line by `save_to`
(src/highlevel/output.rs lines 192-197): the Rust code computes
`consensus.valid_after.date().and_hms(0, 0, 0) - Duration::hours(1)`,
i.e. it first truncates the timestamp to midnight of its calendar day
(`chrono`'s `date()` floors, matching `emod`) and only then subtracts one
hour.  Timestamps are seconds since the Unix epoch. -/
def emittedValidAfter (t : Int) : Int :=
  (t - t.emod 86400) - 3600

/-- Modelled from the spec: the `valid-after` timestamp "shifted back exactly
one hour". -/
def specValidAfter (t : Int) : Int :=
  t - 3600

/-- Civil date from a day number relative to 1970-01-01 (the standard
proleptic-Gregorian conversion used by `chrono`).  Returns `(y, m, d)`. -/
def civilFromDays (z : Int) : Int × Nat × Nat :=
  let z := z + 719468
  let era := z.fdiv 146097
  let doe := (z - era * 146097).toNat
  let yoe := (doe - doe / 1460 + doe / 36524 - doe / 146096) / 365
  let y := (yoe : Int) + era * 400
  let doy := doe - (365 * yoe + yoe / 4 - yoe / 100)
  let mp := (5 * doy + 2) / 153
  let d := doy - (153 * mp + 2) / 5 + 1
  let m := if mp < 10 then mp + 3 else mp - 9
  (if m ≤ 2 then y + 1 else y, m, d)

/-- Left-pad a numeral with zeroes to the given width. -/
def padNum (width n : Nat) : String :=
  let s := toString n
  String.mk (List.replicate (width - s.length) '0') ++ s

/-- Format a Unix timestamp as `%Y-%m-%d %H:%M:%S` (UTC), as `chrono`'s
`format` does for the emitter. -/
def formatTimestamp (t : Int) : String :=
  let days := t.fdiv 86400
  let secs := (t.emod 86400).toNat
  match civilFromDays days with
  | (y, m, d) =>
    padNum 4 y.toNat ++ "-" ++ padNum 2 m ++ "-" ++ padNum 2 d ++ " " ++
    padNum 2 (secs / 3600) ++ ":" ++ padNum 2 (secs % 3600 / 60) ++ ":" ++ padNum 2 (secs % 60)

end Torsynth

namespace Torsynth

/-! ## Raw-content extraction and descriptor digests (src/parser/meta.rs,
src/parser/descriptor.rs) -/

/-- Whether `pattern` is an initial segment of `text`. -/
def leadingMatch : List Nat → List Nat → Bool
  | [], _ => true
  | _ :: _, [] => false
  | p :: ps, t :: ts => p == t && leadingMatch ps ts

/-- Rust's `str::find(pattern)`: the byte index of the *first* occurrence of
`pattern` in `text` (documents and patterns are byte lists; all patterns
used by the parser are ASCII). -/
def strFind : List Nat → List Nat → Option Nat
  | text, pattern =>
    if leadingMatch pattern text then some 0
    else
      match text with
      | [] => none
      | _ :: rest => (strFind rest pattern).map (· + 1)

/-- The byte index of the *last* occurrence of `pattern` in `text`. -/
def strFindLast : List Nat → List Nat → Option Nat
  | [], pattern => if leadingMatch pattern [] then some 0 else none
  | t :: rest, pattern =>
    match strFindLast rest pattern with
    | some i => some (i + 1)
    | none => if leadingMatch pattern (t :: rest) then some 0 else none

/-- `Document::get_raw_content_between(start, end)` (src/parser/meta.rs
lines 115-134): find `start` and `end` with `str::find` — the **first**
occurrence of each — and slice `raw[start_pos .. end_pos + end.len()]`.
`none` models both the `ContentRangeNotFound` error and the slice panic when
`start_pos` exceeds the end of the range. -/
def getRawContentBetween (raw start_pat end_pat : List Nat) : Option (List Nat) :=
  match strFind raw start_pat, strFind raw end_pat with
  | some start_pos, some end_pos =>
    if start_pos ≤ end_pos + end_pat.length then
      some ((raw.take (end_pos + end_pat.length)).drop start_pos)
    else none
  | _, _ => none

/-- Modelled from the spec (§4.C): the byte range from the first occurrence
of `start` to just past the **last** occurrence of `end`. -/
def specContentToLast (raw start_pat end_pat : List Nat) : Option (List Nat) :=
  match strFind raw start_pat, strFindLast raw end_pat with
  | some start_pos, some end_pos =>
    if start_pos ≤ end_pos + end_pat.length then
      some ((raw.take (end_pos + end_pat.length)).drop start_pos)
    else none
  | _, _ => none

/-- The bytes of an ASCII string. -/
def bytesOfAscii (s : String) : List Nat :=
  s.toList.map Char.toNat

/-- The start pattern `"router"` of `Descriptor::from_doc`
(src/parser/descriptor.rs line 45). -/
def routerBytes : List Nat :=
  bytesOfAscii "router"

/-- The end pattern `"\nrouter-signature\n"` of `Descriptor::from_doc`
(src/parser/descriptor.rs line 45). -/
def routerSignatureBytes : List Nat :=
  bytesOfAscii "\nrouter-signature\n"

/-! ### SHA-1 (the `sha1` crate used by `Descriptor::digest_from_raw`) -/

/-- 32-bit left rotation. -/
def rotl32 (n x : Nat) : Nat :=
  ((x <<< n) ||| (x >>> (32 - n))) % 2 ^ 32

/-- Big-endian byte serialisation of `v` into `n` bytes. -/
def bytesBE (n v : Nat) : List Nat :=
  (List.range n).map (fun i => v >>> (8 * (n - 1 - i)) % 256)

/-- SHA-1 padding: append `0x80`, zeroes to 56 mod 64, and the bit length as
a 64-bit big-endian integer. -/
def sha1Pad (msg : List Nat) : List Nat :=
  msg ++ [0x80] ++ List.replicate ((55 - msg.length % 64 + 64) % 64) 0 ++
    bytesBE 8 (msg.length * 8)

/-- Split a list into chunks of the given size, with explicit fuel so the
recursion is structural (each step consumes at least one element, so fuel
equal to the list length suffices).  This models Rust's `slice::chunks`. -/
def chunksOfFuel {α : Type} (fuel n : Nat) : List α → List (List α)
  | [] => []
  | x :: xs =>
    match fuel with
    | 0 => []
    | fuel + 1 => (x :: xs.take (n - 1)) :: chunksOfFuel fuel n (xs.drop (n - 1))

/-- Split a list into chunks of the given size (the last chunk may be
short). -/
def chunksOf {α : Type} (n : Nat) (l : List α) : List (List α) :=
  chunksOfFuel l.length n l

/-- The 16 big-endian 32-bit words of a 64-byte block. -/
def sha1BlockWords (block : List Nat) : List Nat :=
  (List.range 16).map (fun i =>
    (block.getD (4 * i) 0) <<< 24 + (block.getD (4 * i + 1) 0) <<< 16 +
    (block.getD (4 * i + 2) 0) <<< 8 + block.getD (4 * i + 3) 0)

/-- Extend 16 words to the 80-word SHA-1 message schedule. -/
def sha1Schedule (w16 : List Nat) : List Nat :=
  (List.range 64).foldl
    (fun w _ =>
      w ++ [rotl32 1 ((w.getD (w.length - 3) 0) ^^^ (w.getD (w.length - 8) 0) ^^^
        (w.getD (w.length - 14) 0) ^^^ (w.getD (w.length - 16) 0))])
    w16

/-- The SHA-1 round function. -/
def sha1F (t b c d : Nat) : Nat :=
  if t < 20 then (b &&& c) ||| ((b ^^^ 0xffffffff) &&& d)
  else if t < 40 then b ^^^ c ^^^ d
  else if t < 60 then (b &&& c) ||| (b &&& d) ||| (c &&& d)
  else b ^^^ c ^^^ d

/-- The SHA-1 round constants. -/
def sha1K (t : Nat) : Nat :=
  if t < 20 then 0x5a827999
  else if t < 40 then 0x6ed9eba1
  else if t < 60 then 0x8f1bbcdc
  else 0xca62c1d6

/-- Process one 64-byte block into the running state `(h0, h1, h2, h3, h4)`. -/
def sha1Block (st : Nat × Nat × Nat × Nat × Nat) (block : List Nat) :
    Nat × Nat × Nat × Nat × Nat :=
  let w := sha1Schedule (sha1BlockWords block)
  let rounds := (List.range 80).foldl
    (fun (abcde : Nat × Nat × Nat × Nat × Nat) t =>
      let a := abcde.1
      let b := abcde.2.1
      let c := abcde.2.2.1
      let d := abcde.2.2.2.1
      let e := abcde.2.2.2.2
      let tmp := (rotl32 5 a + sha1F t b c d + e + sha1K t + w.getD t 0) % 2 ^ 32
      (tmp, a, rotl32 30 b, c, d))
    (st.1, st.2.1, st.2.2.1, st.2.2.2.1, st.2.2.2.2)
  ((st.1 + rounds.1) % 2 ^ 32, (st.2.1 + rounds.2.1) % 2 ^ 32,
   (st.2.2.1 + rounds.2.2.1) % 2 ^ 32, (st.2.2.2.1 + rounds.2.2.2.1) % 2 ^ 32,
   (st.2.2.2.2 + rounds.2.2.2.2) % 2 ^ 32)

/-- SHA-1 of a byte list, as a 20-byte digest (the `Sha1` hasher of
`Descriptor::digest_from_raw`, src/parser/descriptor.rs lines 113-119). -/
def sha1 (msg : List Nat) : List Nat :=
  let st := (chunksOf 64 (sha1Pad msg)).foldl sha1Block
    (0x67452301, 0xefcdab89, 0x98badcfe, 0x10325476, 0xc3d2e1f0)
  bytesBE 4 st.1 ++ bytesBE 4 st.2.1 ++ bytesBE 4 st.2.2.1 ++
    bytesBE 4 st.2.2.2.1 ++ bytesBE 4 st.2.2.2.2

/-- The digest computed while parsing a descriptor (`Descriptor::from_doc`,
src/parser/descriptor.rs lines 44-46): SHA-1 of the raw content between
`"router"` and `"\nrouter-signature\n"` as sliced by
`get_raw_content_between`. -/
def descriptorDigest (raw : List Nat) : Option (List Nat) :=
  (getRawContentBetween raw routerBytes routerSignatureBytes).map sha1

/-! ## Fingerprint encodings (src/parser/meta.rs) -/

/-- A lower-case hexadecimal digit. -/
def hexDigitLower (n : Nat) : Char :=
  if n < 10 then Char.ofNat (48 + n) else Char.ofNat (97 + (n - 10))

/-- An upper-case hexadecimal digit. -/
def hexDigitUpper (n : Nat) : Char :=
  if n < 10 then Char.ofNat (48 + n) else Char.ofNat (65 + (n - 10))

/-- The value of a hexadecimal digit, as accepted by
`u8::from_str_radix(_, 16)` (either case; the optional leading sign the Rust
parser would also accept never reaches a round-trip input). -/
def hexDigitVal (c : Char) : Option Nat :=
  if '0' ≤ c ∧ c ≤ '9' then some (c.toNat - 48)
  else if 'a' ≤ c ∧ c ≤ 'f' then some (c.toNat - 87)
  else if 'A' ≤ c ∧ c ≤ 'F' then some (c.toNat - 55)
  else none

/-- `impl fmt::Display for Fingerprint` (src/parser/meta.rs lines 301-308),
also exposed as `to_string_hex`: each byte as two lower-case hex digits. -/
def toStringHex (fp : Fingerprint) : List Char :=
  (fp.blob.map (fun b => [hexDigitLower (b / 16), hexDigitLower (b % 16)])).flatten

/-- The peek-based joining loop of `to_string_hex_blocks`: write each
chunk, and a space exactly when another chunk follows. -/
def joinBlocksSpaced : List (List Char) → List Char
  | [] => []
  | [x] => x
  | x :: y :: t => x ++ ' ' :: joinBlocksSpaced (y :: t)

/-- `Fingerprint::to_string_hex_blocks` (src/parser/meta.rs lines 276-298):
the bytes in chunks of two, each byte as two upper-case hex digits, chunks
separated by single spaces. -/
def toStringHexBlocks (fp : Fingerprint) : List Char :=
  joinBlocksSpaced
    ((chunksOf 2 fp.blob).map
      (fun chunk => (chunk.map (fun b => [hexDigitUpper (b / 16), hexDigitUpper (b % 16)])).flatten))

/-- The loop of `Fingerprint::from_str_hex` (src/parser/meta.rs lines
253-263): while input remains, trim leading whitespace, parse exactly two
hex digits into a byte, and continue after them.  `none` models both the
`InvalidHex` error and the slice panic when fewer than two characters
remain after trimming.  Fuel keeps the recursion structural; the input
length is ample fuel. -/
def fromStrHexFuel : Nat → List Char → Option (List Nat)
  | _, [] => some []
  | 0, _ :: _ => none
  | fuel + 1, c :: cs =>
    match (c :: cs).dropWhile Char.isWhitespace with
    | c1 :: c2 :: rest =>
      match hexDigitVal c1, hexDigitVal c2 with
      | some hi, some lo => (fromStrHexFuel fuel rest).map (fun bs => (16 * hi + lo) :: bs)
      | _, _ => none
    | _ => none

/-- `Fingerprint::from_str_hex`. -/
def fromStrHex (s : List Char) : Option Fingerprint :=
  (fromStrHexFuel s.length s).map Fingerprint.mk

/-- The standard base64 alphabet character for a 6-bit value. -/
def b64Char (v : Nat) : Char :=
  if v < 26 then Char.ofNat (65 + v)
  else if v < 52 then Char.ofNat (97 + (v - 26))
  else if v < 62 then Char.ofNat (48 + (v - 52))
  else if v = 62 then '+'
  else '/'

/-- The 6-bit value of a standard base64 alphabet character. -/
def b64Val (c : Char) : Option Nat :=
  if 'A' ≤ c ∧ c ≤ 'Z' then some (c.toNat - 65)
  else if 'a' ≤ c ∧ c ≤ 'z' then some (c.toNat - 71)
  else if '0' ≤ c ∧ c ≤ '9' then some (c.toNat + 4)
  else if c = '+' then some 62
  else if c = '/' then some 63
  else none

/-- `base64::encode` (standard alphabet, padded), as called by
`Fingerprint::to_string_b64`. -/
def b64EncodePadded : List Nat → List Char
  | [] => []
  | [b0] => [b64Char (b0 / 4), b64Char (b0 % 4 * 16), '=', '=']
  | [b0, b1] =>
    [b64Char (b0 / 4), b64Char (b0 % 4 * 16 + b1 / 16), b64Char (b1 % 16 * 4), '=']
  | b0 :: b1 :: b2 :: rest =>
    b64Char (b0 / 4) :: b64Char (b0 % 4 * 16 + b1 / 16) ::
    b64Char (b1 % 16 * 4 + b2 / 64) :: b64Char (b2 % 64) :: b64EncodePadded rest

/-- `str::trim_end_matches('=')`. -/
def trimEqEnd (s : List Char) : List Char :=
  (s.reverse.dropWhile (fun c => c = '=')).reverse

/-- `Fingerprint::to_string_b64` (src/parser/meta.rs lines 268-270):
padded base64 with the padding trimmed off. -/
def toStringB64 (fp : Fingerprint) : List Char :=
  trimEqEnd (b64EncodePadded fp.blob)

/-- `base64::decode` on unpadded input, as `Fingerprint::from_str_b64` uses
it (the crate accepts missing padding; a trailing group of one character or
non-zero trailing bits is an error; explicit `=` padding, which never occurs
in the round-trip inputs, is not modelled). -/
def b64Decode : List Char → Option (List Nat)
  | [] => some []
  | [_] => none
  | [c0, c1] =>
    match b64Val c0, b64Val c1 with
    | some v0, some v1 => if v1 % 16 = 0 then some [v0 * 4 + v1 / 16] else none
    | _, _ => none
  | [c0, c1, c2] =>
    match b64Val c0, b64Val c1, b64Val c2 with
    | some v0, some v1, some v2 =>
      if v2 % 4 = 0 then some [v0 * 4 + v1 / 16, v1 % 16 * 16 + v2 / 4] else none
    | _, _, _ => none
  | c0 :: c1 :: c2 :: c3 :: rest =>
    match b64Val c0, b64Val c1, b64Val c2, b64Val c3 with
    | some v0, some v1, some v2, some v3 =>
      (b64Decode rest).map
        (fun bs => (v0 * 4 + v1 / 16) :: (v1 % 16 * 16 + v2 / 4) :: (v2 % 4 * 64 + v3) :: bs)
    | _, _, _, _ => none

/-- `Fingerprint::from_str_b64` (src/parser/meta.rs lines 248-252). -/
def fromStrB64 (s : List Char) : Option Fingerprint :=
  (b64Decode s).map Fingerprint.mk

/-! ## Vertical scaling by bandwidth rank (src/highlevel/scale.rs) -/

/-- Insert a relay into a list sorted ascending by `bandwidth_weight`. -/
def insertSorted (r : Relay) : List Relay → List Relay
  | [] => [r]
  | x :: xs =>
    if r.bandwidth_weight ≤ x.bandwidth_weight then r :: x :: xs
    else x :: insertSorted r xs

/-- `relays.sort_unstable_by_key(|r| r.bandwidth_weight)`
(src/highlevel/scale.rs line 592): sort ascending by weight (the Rust sort
is unstable, so the order among equal weights is unspecified; insertion
sort realises one such order). -/
def sortByWeight (relays : List Relay) : List Relay :=
  relays.foldr insertSorted []

/-- Number of binary digits of `n`, with fuel to keep the recursion
structural (`n` itself is ample fuel). -/
def bitLenFuel : Nat → Nat → Nat
  | 0, _ => 0
  | fuel + 1, n => if n = 0 then 0 else bitLenFuel fuel (n / 2) + 1

/-- Number of binary digits of `n` (0 for 0). -/
def bitLen (n : Nat) : Nat :=
  bitLenFuel n n

/-- Round a natural number to the nearest IEEE-754 single-precision value
(24-bit significand, ties to even), i.e. the exact value of Rust's
`n as f32` for naturals below the `f32` range limit.  Used to model the
`f32` weight arithmetic of `scale_vertically_by`. -/
def f32OfNat (n : Nat) : Nat :=
  if n < 2 ^ 24 then n
  else
    let sh := bitLen n - 24
    let q := n >>> sh
    let r := n % 2 ^ sh
    let half := 2 ^ (sh - 1)
    let q := if r > half || (r == half && q % 2 == 1) then q + 1 else q
    q <<< sh

/-- The weight written by `scale_vertically_by` (src/highlevel/scale.rs
lines 627-635) for a relay whose scale factor is exactly `1.0`:
`((w as f32) * 1.0) as u64`.  Multiplying by `1.0` is exact in IEEE-754, so
the result is the `f32` rounding of the old weight. -/
def scaledWeightFactorOne (w : Nat) : Nat :=
  f32OfNat w

/-- The `bandwidth_to_scale` map built by `scale_vertically_by_bandwidth_rank`
(src/highlevel/scale.rs lines 576-607): sort the relays ascending by weight,
split into chunks of `num_relays / num_groups`, zip the chunk list with the
scale factors extended by one extra copy of the last factor, and record each
relay's factor keyed by fingerprint.  The `f32` factors are represented by
their exact rational values.  `none` models the two argument-check panics. -/
def bandwidthToScale (relays : List Relay) (scale_per_bandwidth : List Rat) :
    Option (List (Fingerprint × Rat)) :=
  let num_relays := relays.length
  let num_groups := scale_per_bandwidth.length
  if num_groups < 1 then none
  else if num_relays < num_groups then none
  else
    let last_scale := scale_per_bandwidth.getD (num_groups - 1) 0
    some (((scale_per_bandwidth ++ [last_scale]).zip
        (chunksOf (num_relays / num_groups) (sortByWeight relays))).foldl
      (fun m p => p.2.foldl (fun m r => alistInsert m r.fingerprint p.1) m) [])

/-- The per-relay factor lookup performed inside `scale_vertically_by`
(src/highlevel/scale.rs line 605): `bandwidth_to_scale[&relay.fingerprint]`,
which panics (`none`) when the fingerprint has no binding. -/
def rankFactorOf (relays : List Relay) (scales : List Rat) (fp : Fingerprint) :
    Option (Option Rat) :=
  (bandwidthToScale relays scales).map (fun m => alistLookup m fp)

/-! ## Consensus-document parsing (src/parser/consensus.rs) -/

/-- A meta-document item (src/parser/meta.rs, `struct Item`): a keyword line
with optional argument text.  The `-----BEGIN…-----` objects an item may
carry are never consulted by `ConsensusDocument::from_doc` and are not
represented. -/
structure Item where
  keyword : String
  arguments : Option String
deriving DecidableEq, Repr

/-- The parse-error variants of `DocumentParseError`
(src/parser/error.rs) reachable from `ConsensusDocument::from_doc`. -/
inductive DocumentParseError
  | UnexpectedKeyword (keyword : String)
  | ItemArgumentsMissing (keyword : String)
  | InvalidBase64
  | InvalidDate
  | InvalidInt
  | UnknownFlag (flag : String)
  | UnknownProtocol (protocol : String)
  | InvalidProtocolVersion (raw : String)
  | InvalidExitPolicyEntry (raw : String)
  | MalformedExitPolicy
  | InvalidArgumentDict
  | InvalidBandwidthWeight
  | ConsensusWeightsMissing
  | MalformedConsensusWeights
  | ValidAfterMissing
  | InvalidIpAddress (raw : String)
  | RelayIncomplete
deriving DecidableEq, Repr

/-- The value of a decimal digit. -/
def decDigitVal (c : Char) : Option Nat :=
  if '0' ≤ c ∧ c ≤ '9' then some (c.toNat - 48) else none

/-- Parse a nonempty all-digit string as a natural number (the optional
leading sign Rust's `from_str_radix` would also accept never occurs in the
documents concerned). -/
def parseNatDigits (s : List Char) : Option Nat :=
  match s with
  | [] => none
  | _ =>
    s.foldl (fun acc c => acc.bind (fun n => (decDigitVal c).map (fun d => 10 * n + d)))
      (some 0)

/-- `u8::from_str_radix(_, 10)`. -/
def parseU8 (s : String) : Option Nat :=
  (parseNatDigits s.toList).bind (fun n => if n < 256 then some n else none)

/-- `u16::from_str_radix(_, 10)`. -/
def parseU16 (s : String) : Option Nat :=
  (parseNatDigits s.toList).bind (fun n => if n < 65536 then some n else none)

/-- `u64::from_str_radix(_, 10)`. -/
def parseU64 (s : String) : Option Nat :=
  (parseNatDigits s.toList).bind (fun n => if n < 2 ^ 64 then some n else none)

/-- `str::split` on a character, over char lists: every maximal separator-free
piece, including empty ones. -/
def splitOnCharList (c : Char) : List Char → List (List Char)
  | [] => [[]]
  | x :: xs =>
    if x = c then [] :: splitOnCharList c xs
    else
      match splitOnCharList c xs with
      | [] => [[x]]
      | y :: ys => (x :: y) :: ys

/-- `str::split` on a character. -/
def splitChar (s : String) (c : Char) : List String :=
  (splitOnCharList c s.toList).map String.mk

/-- `str::starts_with`. -/
def strStartsWith (s pre : String) : Bool :=
  pre.toList.isPrefixOf s.toList

/-- One octet of a dotted-quad IPv4 address (`Ipv4Addr::from_str` rejects
empty parts, values above 255 and leading zeroes). -/
def parseOctet (s : String) : Option Nat :=
  match s.toList with
  | [] => none
  | c :: rest =>
    if c = '0' ∧ rest ≠ [] then none
    else (parseNatDigits (c :: rest)).bind (fun n => if n < 256 then some n else none)

/-- `Ipv4Addr::from_str`, as the `u32` value of the address. -/
def parseIpv4 (s : String) : Option Nat :=
  match splitChar s '.' with
  | [a, b, c, d] =>
    match parseOctet a, parseOctet b, parseOctet c, parseOctet d with
    | some pa, some pb, some pc, some pd => some (((pa * 256 + pb) * 256 + pc) * 256 + pd)
    | _, _, _, _ => none
  | _ => none

/-- Days since 1970-01-01 of a civil date (proleptic Gregorian), the inverse
of `civilFromDays`. -/
def daysFromCivil (y : Int) (m d : Nat) : Int :=
  let y := if m ≤ 2 then y - 1 else y
  let era := y.fdiv 400
  let yoe := (y - era * 400).toNat
  let mp := (m + 9) % 12
  let doy := (153 * mp + 2) / 5 + d - 1
  let doe := yoe * 365 + yoe / 4 - yoe / 100 + doy
  era * 146097 + (doe : Int) - 719468

/-- Whether a year is a Gregorian leap year. -/
def isLeapYear (y : Int) : Bool :=
  y.emod 4 = 0 && (y.emod 100 ≠ 0 || y.emod 400 = 0)

/-- Days in a month. -/
def daysInMonth (y : Int) (m : Nat) : Nat :=
  if m = 2 then (if isLeapYear y then 29 else 28)
  else if m = 4 ∨ m = 6 ∨ m = 9 ∨ m = 11 then 30
  else 31

/-- `chrono`'s `datetime_from_str(_, "%Y-%m-%d %H:%M:%S")`, for the
canonical fixed-width form the documents carry, validated and converted to
seconds since the Unix epoch. -/
def parseDateTime (s : String) : Option Int :=
  match s.toList with
  | [y1, y2, y3, y4, '-', mo1, mo2, '-', d1, d2, ' ',
     h1, h2, ':', mi1, mi2, ':', se1, se2] =>
    match parseNatDigits [y1, y2, y3, y4], parseNatDigits [mo1, mo2],
      parseNatDigits [d1, d2], parseNatDigits [h1, h2], parseNatDigits [mi1, mi2],
      parseNatDigits [se1, se2] with
    | some y, some mo, some d, some h, some mi, some se =>
      if 1 ≤ mo ∧ mo ≤ 12 ∧ 1 ≤ d ∧ d ≤ daysInMonth y mo ∧ h < 24 ∧ mi < 60 ∧ se < 60 then
        some (daysFromCivil y mo d * 86400 + (h * 3600 + mi * 60 + se : Nat))
      else none
    | _, _, _, _, _, _ => none
  | _ => none

/-- `str::split_once` on a character, over char lists. -/
def splitOnceChar (c : Char) : List Char → Option (List Char × List Char)
  | [] => none
  | x :: xs =>
    if x = c then some ([], xs)
    else (splitOnceChar c xs).map (fun p => (x :: p.1, p.2))

/-- `str::split_once` on a character. -/
def splitOnceStr (s : String) (c : Char) : Option (String × String) :=
  (splitOnceChar c s.toList).map (fun p => (String.mk p.1, String.mk p.2))

/-- `Flag::from_str` (derived by `strum::EnumString`). -/
def flagFromStr : String → Option Flag
  | "Authority" => some Flag.Authority
  | "BadExit" => some Flag.BadExit
  | "Exit" => some Flag.Exit
  | "Fast" => some Flag.Fast
  | "Guard" => some Flag.Guard
  | "HSDir" => some Flag.HSDir
  | "NoEdConsensus" => some Flag.NoEdConsensus
  | "Running" => some Flag.Running
  | "Stable" => some Flag.Stable
  | "StaleDesc" => some Flag.StaleDesc
  | "Sybil" => some Flag.Sybil
  | "V2Dir" => some Flag.V2Dir
  | "Valid" => some Flag.Valid
  | _ => none

/-- `Protocol::from_str` (derived by `strum::EnumString`). -/
def protocolFromStr : String → Option Protocol
  | "Cons" => some Protocol.Cons
  | "Desc" => some Protocol.Desc
  | "DirCache" => some Protocol.DirCache
  | "FlowCtrl" => some Protocol.FlowCtrl
  | "HSDir" => some Protocol.HSDir
  | "HSIntro" => some Protocol.HSIntro
  | "HSRend" => some Protocol.HSRend
  | "Link" => some Protocol.Link
  | "LinkAuth" => some Protocol.LinkAuth
  | "Microdesc" => some Protocol.Microdesc
  | "Padding" => some Protocol.Padding
  | "Relay" => some Protocol.Relay
  | _ => none

/-- The declaration-order rank underlying the derived `Ord` on
`Protocol`. -/
def protoRank : Protocol → Nat
  | Protocol.Cons => 0
  | Protocol.Desc => 1
  | Protocol.DirCache => 2
  | Protocol.FlowCtrl => 3
  | Protocol.HSDir => 4
  | Protocol.HSIntro => 5
  | Protocol.HSRend => 6
  | Protocol.Link => 7
  | Protocol.LinkAuth => 8
  | Protocol.Microdesc => 9
  | Protocol.Padding => 10
  | Protocol.Relay => 11

/-- `BTreeMap::insert` for the protocol map: keep entries sorted by key,
replacing an existing binding. -/
def protoInsert (k : Protocol) (v : SupportedProtocolVersion) :
    List (Protocol × SupportedProtocolVersion) → List (Protocol × SupportedProtocolVersion)
  | [] => [(k, v)]
  | (k', v') :: rest =>
    if protoRank k < protoRank k' then (k, v) :: (k', v') :: rest
    else if protoRank k = protoRank k' then (k, v) :: rest
    else (k', v') :: protoInsert k v rest

/-- Insertion into a sorted `Nat` list (for `versions.sort_unstable()`). -/
def insertNatSorted (n : Nat) : List Nat → List Nat
  | [] => [n]
  | x :: xs => if n ≤ x then n :: x :: xs else x :: insertNatSorted n xs

/-- `Vec::sort_unstable` on version numbers. -/
def sortNats (l : List Nat) : List Nat :=
  l.foldr insertNatSorted []

/-- One component of a protocol version string: `"3"` or `"2-5"`
(`SupportedProtocolVersion::from_str`). -/
def parseVersionComponent (s : String) : Option (List Nat) :=
  match splitOnceStr s '-' with
  | some (mn, mx) =>
    match parseU8 mn, parseU8 mx with
    | some a, some b => some (List.range' a (b + 1 - a))
    | _, _ => none
  | none => (parseU8 s).map (fun v => [v])

/-- `SupportedProtocolVersion::from_str`. -/
def supportedProtocolVersionFromStr (s : String) : Option SupportedProtocolVersion :=
  ((splitChar s ',').mapM parseVersionComponent).map (fun vss => ⟨sortNats vss.flatten⟩)

/-- `PolicyEntry::from_str`: `"443"` or `"80-85"`. -/
def policyEntryFromStr (s : String) : Option PolicyEntry :=
  match splitOnceStr s '-' with
  | some (mn, mx) =>
    match parseU16 mn, parseU16 mx with
    | some a, some b => some (PolicyEntry.PortRange a b)
    | _, _ => none
  | none => (parseU16 s).map PolicyEntry.SinglePort

/-- The entry loop of `CondensedExitPolicy::from_str`. -/
def parsePolicyEntries : List String → Except DocumentParseError (List PolicyEntry)
  | [] => Except.ok []
  | x :: rest =>
    match policyEntryFromStr x with
    | none => Except.error (DocumentParseError.InvalidExitPolicyEntry x)
    | some e => (parsePolicyEntries rest).map (fun es => e :: es)

/-- `CondensedExitPolicy::from_str`. -/
def condensedExitPolicyFromStr (s : String) :
    Except DocumentParseError CondensedExitPolicy :=
  match splitOnceStr s ' ' with
  | none => Except.error DocumentParseError.MalformedExitPolicy
  | some (cmd, ports) =>
    match (if cmd = "accept" then some PolicyType.Accept
           else if cmd = "reject" then some PolicyType.Reject else none) with
    | none => Except.error DocumentParseError.MalformedExitPolicy
    | some pt => (parsePolicyEntries (splitChar ports ',')).map (fun es => ⟨pt, es⟩)

/-- `ShallowRelayBuilder` (derived by `derive_builder` on `ShallowRelay`):
every field is optional until `build` is called. -/
structure ShallowRelayBuilder where
  nickname : Option String := none
  fingerprint : Option Fingerprint := none
  digest : Option Fingerprint := none
  published : Option Int := none
  address : Option Nat := none
  or_port : Option Nat := none
  dir_port : Option (Option Nat) := none
  flags : Option (List Flag) := none
  version_line : Option String := none
  protocols : Option (List (Protocol × SupportedProtocolVersion)) := none
  exit_policy : Option CondensedExitPolicy := none
  bandwidth_weight : Option Nat := none
deriving DecidableEq, Repr

/-- `ShallowRelayBuilder::build`: succeeds only when every field was set. -/
def buildShallowRelay (b : ShallowRelayBuilder) : Except DocumentParseError ShallowRelay :=
  match b.nickname, b.fingerprint, b.digest, b.published, b.address, b.or_port, b.dir_port,
    b.flags, b.version_line, b.protocols, b.exit_policy, b.bandwidth_weight with
  | some nickname, some fingerprint, some digest, some published, some address, some orp,
    some dp, some flags, some version_line, some protocols, some exit_policy,
    some bandwidth_weight =>
    Except.ok ⟨nickname, fingerprint, digest, published, address, orp, dp, flags,
      version_line, protocols, exit_policy, bandwidth_weight⟩
  | _, _, _, _, _, _, _, _, _, _, _, _ =>
    Except.error DocumentParseError.RelayIncomplete

/-- The `"r"` arm of `ConsensusDocument::from_doc` (src/parser/consensus.rs
lines 314-351): start a fresh builder and populate it from the first eight
arguments, propagating each parse failure in source order. -/
def startRelay (item : Item) : Except DocumentParseError ShallowRelayBuilder :=
  match item.arguments with
  | none => Except.error (DocumentParseError.ItemArgumentsMissing item.keyword)
  | some args =>
    match splitChar args ' ' with
    | nickname :: identity :: digest :: published_1 :: published_2 :: ip ::
        or_port :: dir_port :: _ =>
      match fromStrB64 identity.toList with
      | none => Except.error DocumentParseError.InvalidBase64
      | some fp =>
        match fromStrB64 digest.toList with
        | none => Except.error DocumentParseError.InvalidBase64
        | some dg =>
          match parseDateTime (published_1 ++ " " ++ published_2) with
          | none => Except.error DocumentParseError.InvalidDate
          | some pub =>
            match parseIpv4 ip with
            | none => Except.error (DocumentParseError.InvalidIpAddress ip)
            | some addr =>
              match parseU16 or_port with
              | none => Except.error DocumentParseError.InvalidInt
              | some orp =>
                match parseU16 dir_port with
                | none => Except.error DocumentParseError.InvalidInt
                | some dp =>
                  Except.ok ⟨some nickname, some fp, some dg, some pub, some addr,
                    some orp, some (if dp = 0 then none else some dp),
                    none, none, none, none, none⟩
    | _ => Except.error (DocumentParseError.ItemArgumentsMissing item.keyword)

/-- The flag-list loop of the `"s"` arm: skip whitespace-only pieces, fail
on unknown flags. -/
def parseFlags : List String → Except DocumentParseError (List Flag)
  | [] => Except.ok []
  | x :: rest =>
    if x.toList.dropWhile Char.isWhitespace = [] then parseFlags rest
    else
      match flagFromStr x with
      | none => Except.error (DocumentParseError.UnknownFlag x)
      | some f => (parseFlags rest).map (fun fs => f :: fs)

/-- The `"s"` arm: parse the flag list into the builder. -/
def applyS (item : Item) (b : ShallowRelayBuilder) :
    Except DocumentParseError ShallowRelayBuilder :=
  match item.arguments with
  | none => Except.error (DocumentParseError.ItemArgumentsMissing item.keyword)
  | some args => (parseFlags (splitChar args ' ')).map (fun fs => { b with flags := some fs })

/-- The `"v"` arm: record the version line (empty when absent); it cannot
fail. -/
def applyV (item : Item) (b : ShallowRelayBuilder) : ShallowRelayBuilder :=
  { b with version_line := some (item.arguments.getD "") }

/-- The protocol-entry loop of the `"pr"` arm. -/
def parseProtocolEntries :
    List String → List (Protocol × SupportedProtocolVersion) →
    Except DocumentParseError (List (Protocol × SupportedProtocolVersion))
  | [], m => Except.ok m
  | x :: rest, m =>
    if x.toList.dropWhile Char.isWhitespace = [] then parseProtocolEntries rest m
    else
      match splitOnceStr x '=' with
      | none => Except.error DocumentParseError.InvalidArgumentDict
      | some (l, r) =>
        match protocolFromStr l with
        | none => Except.error (DocumentParseError.UnknownProtocol l)
        | some prot =>
          match supportedProtocolVersionFromStr r with
          | none => Except.error (DocumentParseError.InvalidProtocolVersion r)
          | some vers => parseProtocolEntries rest (protoInsert prot vers m)

/-- The `"pr"` arm. -/
def applyPr (item : Item) (b : ShallowRelayBuilder) :
    Except DocumentParseError ShallowRelayBuilder :=
  match item.arguments with
  | none => Except.error (DocumentParseError.ItemArgumentsMissing item.keyword)
  | some args =>
    (parseProtocolEntries (splitChar args ' ') []).map
      (fun m => { b with protocols := some m })

/-- The `"p"` arm. -/
def applyP (item : Item) (b : ShallowRelayBuilder) :
    Except DocumentParseError ShallowRelayBuilder :=
  match item.arguments with
  | none => Except.error (DocumentParseError.ItemArgumentsMissing item.keyword)
  | some args =>
    (condensedExitPolicyFromStr args).map (fun pol => { b with exit_policy := some pol })

/-- The `Bandwidth=` search loop of the `"w"` arm (later occurrences
overwrite earlier ones, other keys are ignored). -/
def parseBandwidthArgs : List String → Option Nat → Except DocumentParseError (Option Nat)
  | [], acc => Except.ok acc
  | x :: rest, acc =>
    match splitOnceStr x '=' with
    | none => Except.error DocumentParseError.InvalidBandwidthWeight
    | some (k, v) =>
      if k = "Bandwidth" then
        match parseU64 v with
        | none => Except.error DocumentParseError.InvalidBandwidthWeight
        | some n => parseBandwidthArgs rest (some n)
      else parseBandwidthArgs rest acc

/-- The `"w"` arm: the argument must start with `Bandwidth=`. -/
def applyW (item : Item) (b : ShallowRelayBuilder) :
    Except DocumentParseError ShallowRelayBuilder :=
  match item.arguments with
  | none => Except.error (DocumentParseError.ItemArgumentsMissing item.keyword)
  | some args =>
    if !(strStartsWith args "Bandwidth=") then
      Except.error DocumentParseError.InvalidBandwidthWeight
    else
      (parseBandwidthArgs (splitChar args ' ') none).map
        (fun acc => match acc with
          | some n => { b with bandwidth_weight := some n }
          | none => b)

/-- The relay-collection loop of `ConsensusDocument::from_doc`
(src/parser/consensus.rs lines 304-463): each `"r"` finishes the pending
relay and opens a new builder; `"s"`, `"v"`, `"pr"`, `"p"`, `"w"` populate
the pending builder (erroring with `UnexpectedKeyword` when none is
pending); `"a"` is ignored; any other keyword finishes the pending relay
and breaks.  When the item list ends, the loop returns **without**
committing a pending builder. -/
def collectRelays : List Item → Option ShallowRelayBuilder → List ShallowRelay →
    Except DocumentParseError (List ShallowRelay)
  | [], _, relays => Except.ok relays
  | item :: rest, relay, relays =>
    if item.keyword = "r" then
      match (match relay with
             | some old => (buildShallowRelay old).map (fun sr => relays ++ [sr])
             | none => Except.ok relays) with
      | Except.error e => Except.error e
      | Except.ok relays' =>
        match startRelay item with
        | Except.error e => Except.error e
        | Except.ok b => collectRelays rest (some b) relays'
    else if item.keyword = "s" then
      match relay with
      | none => Except.error (DocumentParseError.UnexpectedKeyword item.keyword)
      | some b =>
        match applyS item b with
        | Except.error e => Except.error e
        | Except.ok b' => collectRelays rest (some b') relays
    else if item.keyword = "v" then
      match relay with
      | none => Except.error (DocumentParseError.UnexpectedKeyword item.keyword)
      | some b => collectRelays rest (some (applyV item b)) relays
    else if item.keyword = "pr" then
      match relay with
      | none => Except.error (DocumentParseError.UnexpectedKeyword item.keyword)
      | some b =>
        match applyPr item b with
        | Except.error e => Except.error e
        | Except.ok b' => collectRelays rest (some b') relays
    else if item.keyword = "p" then
      match relay with
      | none => Except.error (DocumentParseError.UnexpectedKeyword item.keyword)
      | some b =>
        match applyP item b with
        | Except.error e => Except.error e
        | Except.ok b' => collectRelays rest (some b') relays
    else if item.keyword = "w" then
      match relay with
      | none => Except.error (DocumentParseError.UnexpectedKeyword item.keyword)
      | some b =>
        match applyW item b with
        | Except.error e => Except.error e
        | Except.ok b' => collectRelays rest (some b') relays
    else if item.keyword = "a" then
      collectRelays rest relay relays
    else
      match relay with
      | some old => (buildShallowRelay old).map (fun sr => relays ++ [sr])
      | none => Except.ok relays

/-- `BTreeMap::insert` for the weights map: sorted by string key, replacing
an existing binding. -/
def strInsertSorted (k : String) (v : Nat) : List (String × Nat) → List (String × Nat)
  | [] => [(k, v)]
  | (k', v') :: rest =>
    if k < k' then (k, v) :: (k', v') :: rest
    else if k = k' then (k, v) :: rest
    else (k', v') :: strInsertSorted k v rest

/-- The weight-entry loop of the `bandwidth-weights` item. -/
def parseWeightArgs : List String → List (String × Nat) →
    Except DocumentParseError (List (String × Nat))
  | [], m => Except.ok m
  | x :: rest, m =>
    match splitOnceStr x '=' with
    | none => Except.error DocumentParseError.MalformedConsensusWeights
    | some (k, v) =>
      match parseU64 v with
      | none => Except.error DocumentParseError.MalformedConsensusWeights
      | some n => parseWeightArgs rest (strInsertSorted k n m)

/-- The weight collection of `from_doc` (src/parser/consensus.rs lines
466-486): the first `bandwidth-weights` item. -/
def collectWeights (items : List Item) :
    Except DocumentParseError (List (String × Nat)) :=
  match items.dropWhile (fun x => x.keyword ≠ "bandwidth-weights") with
  | [] => Except.error DocumentParseError.ConsensusWeightsMissing
  | item :: _ =>
    match item.arguments with
    | none => Except.error (DocumentParseError.ItemArgumentsMissing item.keyword)
    | some args => parseWeightArgs (splitChar args ' ') []

/-- The `valid-after` collection of `from_doc` (src/parser/consensus.rs
lines 489-498). -/
def collectValidAfter (items : List Item) : Except DocumentParseError Int :=
  match items.dropWhile (fun x => x.keyword ≠ "valid-after") with
  | [] => Except.error DocumentParseError.ValidAfterMissing
  | item :: _ =>
    match item.arguments with
    | none => Except.error (DocumentParseError.ItemArgumentsMissing item.keyword)
    | some arg =>
      match parseDateTime arg with
      | none => Except.error DocumentParseError.InvalidDate
      | some t => Except.ok t

/-- A parsed consensus document (src/parser/consensus.rs,
`struct ConsensusDocument`). -/
structure ConsensusDocument where
  valid_after : Int
  relays : List ShallowRelay
  weights : List (String × Nat)
deriving DecidableEq, Repr

/-- `ConsensusDocument::from_doc`: collect the relays starting at the first
`"r"` item, then the weights and the `valid-after` timestamp. -/
def consensusFromDoc (items : List Item) :
    Except DocumentParseError ConsensusDocument :=
  match collectRelays (items.dropWhile (fun x => x.keyword ≠ "r")) none [] with
  | Except.error e => Except.error e
  | Except.ok relays =>
    match collectWeights items with
    | Except.error e => Except.error e
    | Except.ok weights =>
      match collectValidAfter items with
      | Except.error e => Except.error e
      | Except.ok valid_after => Except.ok ⟨valid_after, relays, weights⟩

/-! ## Horizontal scaling (src/highlevel/scale.rs, `scale_horizontally`) -/

/-- Little-endian base-256 value of a digit list. -/
def leVal : List Nat → Nat
  | [] => 0
  | d :: rest => d + 256 * leVal rest

/-- Big-endian base-256 value of a digit list (the order
`FingerprintGenerator` stores its state in). -/
def beVal (l : List Nat) : Nat := leVal l.reverse

/-- `FingerprintGenerator::inc` over the reversed state: the source
iterates the digits in reverse, incrementing the first digit below 255 and
zeroing the 255s before it; all digits 255 is the overflow panic. -/
def fpIncRev : List Nat → Option (List Nat)
  | [] => none
  | d :: rest =>
    if d < 255 then some ((d + 1) :: rest)
    else (fpIncRev rest).map (fun r => 0 :: r)

/-- `FingerprintGenerator::inc` on the big-endian state. -/
def fpInc (st : List Nat) : Option (List Nat) :=
  (fpIncRev st.reverse).map List.reverse

/-- `FingerprintGenerator::new`: 40 zero bytes. -/
def fpGenInit : List Nat := List.replicate 40 0

/-- The sequence of the next `n` fingerprints the generator emits from
state `st` (each `get_fingerprint` call increments first, then reads). -/
def fpSeq (st : List Nat) : Nat → Option (List (List Nat))
  | 0 => some []
  | n + 1 =>
    match fpInc st with
    | none => none
    | some st2 => (fpSeq st2 n).map (fun l => st2 :: l)

/-- Decimal digits of `n`, least significant first, with fuel. -/
def natDigitsRevFuel : Nat → Nat → List Char
  | 0, _ => []
  | _ + 1, 0 => []
  | fuel + 1, n + 1 => Char.ofNat (48 + (n + 1) % 10) :: natDigitsRevFuel fuel ((n + 1) / 10)

/-- Decimal rendering of a natural number (for
`NicknameGenerator::get_nickname`'s `format!`). -/
def natToDecimal (n : Nat) : String :=
  if n = 0 then "0" else String.mk (natDigitsRevFuel n n).reverse

/-- The random choices of one iteration of `scale_horizontally`'s
generation loop (src/highlevel/scale.rs lines 67-129), externalised:
`in_family`, `new_family` and `same_as` are the three `gen_bool` rolls,
`chosen` is the index (into the relay vector) the weighted relay sample
returns, and `family_ref` is the outcome of the family-reference sample of
lines 96-116 — `none` when the AS-restricted weighted draw fails with
`AllWeightsZero`, otherwise the index of the sampled reference relay.  The
flag/AS weighting only biases which index is drawn, which the draw models
directly. -/
structure ScaleDraw where
  in_family : Bool
  new_family : Bool
  same_as : Bool
  chosen : Nat
  family_ref : Option Nat
deriving DecidableEq, Repr

/-- The effect of one generation-loop iteration. -/
inductive GenStep
  | push (r : Relay)
  | pushNeeding (r : Relay)
  | retry
  | fail
deriving DecidableEq, Repr

/-- One iteration of the generation loop (src/highlevel/scale.rs lines
84-128): clones the chosen relay into `new_relays_with_family` (family
cleared or copied from the reference relay) or into
`new_relays_needing_family`; a failed AS-restricted reference draw
`continue`s without counting (`retry`); an index outside the relay vector,
or a reference draw violating the sampler's own restrictions (the
reference must have a family and satisfy the AS relation) is not a
possible outcome and maps to `fail`, as does the unrestricted draw's
`unwrap` on an empty candidate set. -/
def scaleGenStep (old : List Relay) (d : ScaleDraw) : GenStep :=
  match old[d.chosen]? with
  | none => GenStep.fail
  | some chosen =>
    if d.in_family then
      if d.new_family then GenStep.pushNeeding chosen
      else
        if chosen.family.isSome ∧ d.same_as then
          GenStep.push chosen
        else
          match d.family_ref with
          | none => if d.same_as then GenStep.retry else GenStep.fail
          | some i =>
            match old[i]? with
            | none => GenStep.fail
            | some ref =>
              if ref.family.isSome ∧
                  (if d.same_as then ref.asn = chosen.asn else ref.asn ≠ chosen.asn) then
                GenStep.push { chosen with family := ref.family }
              else GenStep.fail
    else GenStep.push { chosen with family := none }

/-- The generation loop `while created_relays < num_new_relays`
(src/highlevel/scale.rs lines 67-129), driven by a list of draws; `none`
when the draws run out before the budget is met (the real loop would keep
drawing) or a draw is impossible. -/
def scaleGenLoop (old : List Relay) : List ScaleDraw → Nat → List Relay → List Relay →
    Option (List Relay × List Relay)
  | _, 0, withFam, needing => some (withFam, needing)
  | [], _ + 1, _, _ => none
  | d :: draws, budget + 1, withFam, needing =>
    match scaleGenStep old d with
    | GenStep.push r => scaleGenLoop old draws budget (withFam ++ [r]) needing
    | GenStep.pushNeeding r => scaleGenLoop old draws budget withFam (needing ++ [r])
    | GenStep.retry => scaleGenLoop old draws (budget + 1) withFam needing
    | GenStep.fail => none

/-- The customisation loop (src/highlevel/scale.rs lines 130-137 and
261-277): each new relay receives the next generator fingerprint, the next
`torscaler-dsi-{num}` nickname (the counter starts at 1 and increments
before use), and a sampled address (supplied as a draw, one per relay). -/
def customizeLoop : List Relay → List Nat → List Nat → Nat → Option (List Relay)
  | [], _, _, _ => some []
  | r :: rs, st, addrs, num =>
    match fpInc st with
    | none => none
    | some st2 =>
      match addrs with
      | [] => none
      | a :: addrs2 =>
        (customizeLoop rs st2 addrs2 (num + 1)).map (fun rest =>
          { r with
              fingerprint := ⟨st2⟩,
              nickname := "torscaler-dsi-" ++ natToDecimal (num + 1),
              address := a } :: rest)

/-- The family-size sampling loop (src/highlevel/scale.rs lines 151-169):
draws are indices into the consensus's family-size list; a size exceeding
the remaining budget restarts from scratch (`continue 'outer`), a size
equal to it finishes, and the loop fails (`none`) only when the draws run
out.  The size frequencies only bias which index is drawn. -/
def sampleFamilySizesLoop (sizes : List Nat) (total : Nat) :
    List Nat → Nat → List Nat → Option (List Nat)
  | [], _, _ => none
  | d :: draws, remaining, acc =>
    match sizes[d]? with
    | none => none
    | some size =>
      if size > remaining then sampleFamilySizesLoop sizes total draws total []
      else if size = remaining then some (acc ++ [size])
      else sampleFamilySizesLoop sizes total draws (remaining - size) (acc ++ [size])

/-- `Vec::swap_remove`: return the element at `i`, replacing it by the last
element and shortening the vector by one. -/
def swapRemove {α : Type} (l : List α) (i : Nat) : Option (α × List α) :=
  match l[i]?, l.getLast? with
  | some x, some last => some (x, (l.set i last).dropLast)
  | _, _ => none

/-- The member-recruitment loop of one family (src/highlevel/scale.rs
lines 182-212): each step samples one of the remaining
`new_relays_needing_family` (the draw is the sampled index; the AS
preference and its unrestricted fallback only bias which index is drawn)
and moves it into the family via `swap_remove`. -/
def assembleFamilyMembers : Nat → List Relay → List Relay → List Nat →
    Option (List Relay × List Relay × List Nat)
  | 0, members, needing, draws => some (members, needing, draws)
  | size + 1, members, needing, draws =>
    match draws with
    | [] => none
    | d :: draws2 =>
      match swapRemove needing d with
      | none => none
      | some (m, needing2) =>
        assembleFamilyMembers size (members ++ [m]) needing2 draws2

/-- The family-construction loop (src/highlevel/scale.rs lines 176-225):
for each sampled size, pop the last relay needing a family as the first
member, recruit `size - 1` further members, set every member's family to
the freshly created family object (modelled by a fresh id), and append the
members to the finished relays. -/
def assembleFamilies : List Nat → List Relay → List Nat → Nat → Option (List Relay)
  | [], _, _, _ => some []
  | size :: sizes, needing, draws, famId =>
    match needing.getLast? with
    | none => none
    | some first =>
      match assembleFamilyMembers (size - 1) [first] needing.dropLast draws with
      | none => none
      | some (members, needing2, draws2) =>
        match assembleFamilies sizes needing2 draws2 (famId + 1) with
        | none => none
        | some rest =>
          some (members.map (fun r => { r with family := some famId }) ++ rest)

/-- `scale_horizontally` (src/highlevel/scale.rs lines 17-244) up to the
relay-map update, with the randomness externalised and the new-relay
budget `round(N * scale) - N` passed in: run the generation loop, customise
`new_relays_with_family` then `new_relays_needing_family` (fingerprints
from a fresh generator), sample the new family sizes (skipped when no
relay needs a family), assemble the families, and insert every new relay
into the relay map keyed by its own fingerprint.  The trailing
`recompute_families`, `recompute_bw_weights` and `recompute_stats` steps
rebuild family objects, weights and statistics without inserting or
removing relays and are not modelled. -/
def scaleHorizontally (c : Consensus) (budget : Nat) (genDraws : List ScaleDraw)
    (addrDraws sizeDraws memberDraws : List Nat) (famBase : Nat) : Option Consensus :=
  match scaleGenLoop (c.relays.map Prod.snd) genDraws budget [] [] with
  | none => none
  | some (withFam, needing) =>
    match customizeLoop (withFam ++ needing) fpGenInit addrDraws 1 with
    | none => none
    | some customized =>
      let withFam2 := customized.take withFam.length
      let needing2 := customized.drop withFam.length
      match (if needing2.isEmpty then some []
             else sampleFamilySizesLoop (c.family_sizes.map Prod.fst) needing2.length
                    sizeDraws needing2.length []) with
      | none => none
      | some sizes =>
        match assembleFamilies sizes needing2 memberDraws famBase with
        | none => none
        | some assembled =>
          some { c with relays := insertNewRelays c.relays (withFam2 ++ assembled) }

/-- Modelled from the spec: the relay count after horizontal scaling,
`round(N * s)` with round-half-away-from-zero (Rust `f32::round`) for a
scale factor given as the exact rational `p / q` (`q ≠ 0`):
`⌊N * p / q + 1 / 2⌋ = ⌊(2 * N * p + q) / (2 * q)⌋` in exact integer
arithmetic. -/
def specNumRelaysAfter (n p q : Nat) : Nat :=
  (2 * n * p + q) / (2 * q)

/-! ## Concrete instances used by the claim theorems -/

/-- A relay carrying none of the Guard/Exit/BadExit flags, with bandwidth 5:
per the spec it belongs to the `M` class. -/
def relayNoFlags : Relay :=
  { nickname := "middle", fingerprint := ⟨[1]⟩, digest := ⟨[2]⟩, published := 0,
    address := 0, asn := none, or_port := 9001, dir_port := none, flags := [],
    version_line := "", protocols := [],
    exit_policy := ⟨PolicyType.Reject, []⟩, bandwidth_weight := 5, family := none,
    bw_observed_was_zero := false }

/-- A consensus entry with the given nickname, fingerprint and digest, with
neutral values for the remaining fields. -/
def shallowEntry (nick : String) (fp digest : Fingerprint) : ShallowRelay :=
  { nickname := nick, fingerprint := fp, digest := digest, published := 0,
    address := 0, or_port := 9001, dir_port := none, flags := [],
    version_line := "", protocols := [],
    exit_policy := ⟨PolicyType.Reject, []⟩, bandwidth_weight := 1 }

/-- A descriptor with the given fingerprint and digest, declaring no family
members. -/
def descEntry (nick : String) (fp digest : Fingerprint) : Descriptor :=
  { nickname := nick, fingerprint := fp, digest := digest, published := 0,
    family_members := [], bandwidth_avg := 1, bandwidth_burst := 1,
    bandwidth_observed := 1 }

/-- A descriptor body in which the `"\nrouter-signature\n"` delimiter occurs
twice. -/
def c7RawTwice : List Nat :=
  bytesOfAscii "router A\nrouter-signature\nrouter B\nrouter-signature\nrest"

/-- A descriptor body with a single `"\nrouter-signature\n"` delimiter. -/
def c7RawOnce : List Nat :=
  bytesOfAscii "router X\nrouter-signature\n"

/-- A middle relay with the given byte as fingerprint and the given
bandwidth weight. -/
def c6Relay (i : Nat) : Relay :=
  { relayNoFlags with fingerprint := ⟨[i]⟩, bandwidth_weight := i }

/-- Seven relays with distinct weights 1..7. -/
def c6Relays : List Relay :=
  [c6Relay 1, c6Relay 2, c6Relay 3, c6Relay 4, c6Relay 5, c6Relay 6, c6Relay 7]

/-- Four relays with distinct weights 1..4. -/
def c6RelaysSmall : List Relay :=
  [c6Relay 1, c6Relay 2, c6Relay 3, c6Relay 4]

/-- The empty consensus (no relays, no stored weights). -/
def consensusEmpty : Consensus :=
  { valid_after := 0, weights := [], relays := [], family_sizes := [] }

/-- The 19 weights `recompute_bw_weights` produces for an empty relay set
(class sums `(1,1,1,1)`, case 2b1). -/
def weightsEmptyCase : List (String × Nat) :=
  [("Wbd", 3333), ("Wbe", 0), ("Wbg", 0), ("Wbm", 10000), ("Wdb", 10000),
   ("Web", 10000), ("Wed", 3333), ("Wee", 10000), ("Weg", 3333), ("Wem", 10000),
   ("Wgb", 10000), ("Wgd", 3333), ("Wgg", 10000), ("Wgm", 10000), ("Wmb", 10000),
   ("Wmd", 3333), ("Wme", 0), ("Wmg", 0), ("Wmm", 10000)]

/-- The first fingerprint `FingerprintGenerator` ever emits: 39 zero bytes
followed by 1. -/
def c3Fp : Fingerprint := ⟨List.replicate 39 0 ++ [1]⟩

/-- A consensus holding a single relay whose fingerprint collides with the
first generated fingerprint. -/
def c3Consensus : Consensus :=
  { valid_after := 0, weights := [],
    relays := [(c3Fp, { relayNoFlags with fingerprint := c3Fp })],
    family_sizes := [] }

/-- One generation draw: no family, base relay at index 0. -/
def c3Draws : List ScaleDraw := [⟨false, false, false, 0, none⟩]

/-- A consensus holding a single relay whose fingerprint does not collide
with any generated fingerprint. -/
def c3FreshConsensus : Consensus :=
  { valid_after := 0, weights := [],
    relays := [(⟨[5]⟩, { relayNoFlags with fingerprint := ⟨[5]⟩ })],
    family_sizes := [] }

/-- A consensus document whose item sequence ends while the second relay is
still being built: one complete relay (`r`, `s`, `v`, `pr`, `p`, `w`) and a
trailing `r` item, with the `valid-after` and `bandwidth-weights` items
placed before the first `r`. -/
def c10Items : List Item :=
  [⟨"valid-after", some "2022-05-03 14:00:00"⟩,
   ⟨"bandwidth-weights", some "Wgg=10000"⟩,
   ⟨"r", some "nick AAAAAAAAAAAAAAAAAAAAAAAAAAA AAAAAAAAAAAAAAAAAAAAAAAAAAA 2022-05-03 12:00:00 1.2.3.4 9001 0"⟩,
   ⟨"s", some "Fast Guard"⟩,
   ⟨"v", some "Tor 0.4.6.10"⟩,
   ⟨"pr", some "Cons=1-2"⟩,
   ⟨"p", some "reject 1-65535"⟩,
   ⟨"w", some "Bandwidth=20"⟩,
   ⟨"r", some "nick2 AAAAAAAAAAAAAAAAAAAAAAAAAAA AAAAAAAAAAAAAAAAAAAAAAAAAAA 2022-05-03 12:00:00 1.2.3.5 9001 0"⟩]

end Torsynth

namespace Torsynth

/-! ## Theorems -/

/-- C1 (code bug): the class sums fed into the bandwidth-weight casework do
not match the spec.  For a consensus holding one relay with no flags and
bandwidth 5, the code returns `(E,G,D,M) = (1,1,1,1)` while the spec's
definition gives `M = 5`: the second `else if relay.has_flag(Flag::Guard)`
in src/writer/mod.rs lines 26-30 is unreachable, so `M` is never
accumulated (and the other sums are `1 + Σ`, not `max 1 Σ`). -/
theorem c1_bw_class_sums_code_bug :
    bwClassSums [relayNoFlags] = (1, 1, 1, 1) ∧
    specClassSums [relayNoFlags] = (1, 1, 1, 5) ∧
    bwClassSums [relayNoFlags] ≠ specClassSums [relayNoFlags] := by
  refine ⟨rfl, rfl, ?_⟩
  decide

/-- C4 (code bug): `IpRange::len` computes `(32 - masklen)²`, not the
cardinality `2^(32 - masklen)`: for mask length 24 it returns 64 instead of
256.  Consequently `sample_ip`'s random index is not always below the true
cardinality: for mask length 29 the index 8 is accepted (8 < 9 = the buggy
length) and the sampled address `base + 8` lies outside the 8-address
range. -/
theorem c4_ip_range_len_code_bug :
    ipRangeLen 24 = 64 ∧ specRangeCardinality 24 = 256 ∧
    ipRangeLen 24 ≠ specRangeCardinality 24 ∧
    sampleIpOutcome 0 29 8 = some 8 ∧ inIpRange 0 29 8 = false := by
  refine ⟨rfl, by decide, by decide, rfl, rfl⟩

/-- C5 (counterexample): for `valid_after` = 1970-01-11 14:30:00 (epoch
916200), the emitter writes `1970-01-10 23:00:00`, not the one-hour shift
`1970-01-11 13:30:00` the claim requires: the code truncates to midnight of
the `valid_after` day before subtracting the hour. -/
theorem c5_valid_after_counterexample :
    emittedValidAfter 916200 ≠ specValidAfter 916200 ∧
    formatTimestamp (emittedValidAfter 916200) = "1970-01-10 23:00:00" ∧
    formatTimestamp (specValidAfter 916200) = "1970-01-11 13:30:00" := by
  refine ⟨by decide, by decide, by decide⟩

/-- C5 (amended): the emitted `valid-after` timestamp is midnight of the
`valid_after` calendar day minus one hour — always 23:00:00 of the previous
day — and it equals `valid_after` shifted back exactly one hour precisely
when `valid_after` is at midnight. -/
theorem c5_valid_after_amended (t : Int) :
    (emittedValidAfter t).emod 86400 = 82800 ∧
    (emittedValidAfter t = specValidAfter t ↔ t.emod 86400 = 0) := by
  unfold emittedValidAfter specValidAfter
  constructor
  · show (t - t % 86400 - 3600) % 86400 = 82800
    have h1 : t - t % 86400 - 3600 = -3600 + 86400 * (t / 86400) := by
      rw [Int.emod_def]; ring
    rw [h1, Int.add_mul_emod_self_left]
    decide
  · omega

/-- C9: `verify_weights` returns `Ok` iff the freshly recomputed weights
equal the stored ones; in both outcomes the consensus is left holding the
recomputed weights, and on mismatch the `Err` diagnostic carries the old and
new weights without restoring the old ones. -/
theorem c9_verify_weights (c c2 : Consensus) (h : recomputeBwWeights c = some c2) :
    (verifyWeights c).map (fun p => p.1.weights) = some c2.weights ∧
    ((verifyWeights c).map Prod.snd = some (Except.ok ()) ↔ c.weights = c2.weights) ∧
    (c.weights ≠ c2.weights →
      (verifyWeights c).map Prod.snd = some (Except.error (c.weights, c2.weights))) := by
  unfold verifyWeights
  rw [h]
  by_cases hw : c.weights = c2.weights
  · simp [hw]
  · simp [hw]

/-- C9 witness: the theorem applied to the empty consensus, whose stored
weights (empty) differ from the recomputed ones. -/
theorem c9_verify_weights_witness :
    (verifyWeights consensusEmpty).map (fun p => p.1.weights) =
      some ({ consensusEmpty with weights := weightsEmptyCase } : Consensus).weights ∧
    ((verifyWeights consensusEmpty).map Prod.snd = some (Except.ok ()) ↔
      consensusEmpty.weights =
        ({ consensusEmpty with weights := weightsEmptyCase } : Consensus).weights) ∧
    (consensusEmpty.weights ≠
        ({ consensusEmpty with weights := weightsEmptyCase } : Consensus).weights →
      (verifyWeights consensusEmpty).map Prod.snd =
        some (Except.error (consensusEmpty.weights,
          ({ consensusEmpty with weights := weightsEmptyCase } : Consensus).weights))) :=
  c9_verify_weights consensusEmpty { consensusEmpty with weights := weightsEmptyCase } (by decide)

end Torsynth

namespace Torsynth

/-! ## Association-list lemmas shared by the map-invariant proofs -/

/-- Members of an insertion are the new binding or old members. -/
theorem mem_alistInsert {α β : Type} [DecidableEq α] {m : List (α × β)} {k : α} {v : β}
    {p : α × β} (h : p ∈ alistInsert m k v) : p = (k, v) ∨ p ∈ m := by
  induction m with
  | nil =>
    simp only [alistInsert, List.mem_singleton] at h
    exact Or.inl h
  | cons hd tl ih =>
    obtain ⟨a, b⟩ := hd
    simp only [alistInsert] at h
    by_cases hak : a = k
    · rw [if_pos hak] at h
      rcases List.mem_cons.mp h with h' | h'
      · exact Or.inl h'
      · exact Or.inr (List.mem_cons_of_mem _ h')
    · rw [if_neg hak] at h
      rcases List.mem_cons.mp h with h' | h'
      · exact Or.inr (h' ▸ List.mem_cons_self _ _)
      · rcases ih h' with h'' | h''
        · exact Or.inl h''
        · exact Or.inr (List.mem_cons_of_mem _ h'')

/-- Members of a removal were members before. -/
theorem mem_alistRemove {α β : Type} [DecidableEq α] {m : List (α × β)} {k : α}
    {p : α × β} (h : p ∈ alistRemove m k) : p ∈ m := by
  induction m with
  | nil => simp [alistRemove] at h
  | cons hd tl ih =>
    obtain ⟨a, b⟩ := hd
    simp only [alistRemove] at h
    by_cases hak : a = k
    · rw [if_pos hak] at h
      exact List.mem_cons_of_mem _ h
    · rw [if_neg hak] at h
      rcases List.mem_cons.mp h with h' | h'
      · exact h' ▸ List.mem_cons_self _ _
      · exact List.mem_cons_of_mem _ (ih h')

/-- A successful lookup is a member. -/
theorem alistLookup_mem {α β : Type} [DecidableEq α] {m : List (α × β)} {k : α} {v : β}
    (h : alistLookup m k = some v) : (k, v) ∈ m := by
  induction m with
  | nil => simp [alistLookup] at h
  | cons hd tl ih =>
    obtain ⟨a, b⟩ := hd
    simp only [alistLookup] at h
    by_cases hak : a = k
    · rw [if_pos hak] at h
      cases h
      exact hak ▸ List.mem_cons_self _ _
    · rw [if_neg hak] at h
      exact List.mem_cons_of_mem _ (ih h)

/-- Every binding of the descriptor index comes from the descriptor list and
is keyed by that descriptor's digest. -/
theorem mem_descIndex_fold {descriptors : List Descriptor}
    {acc : List (Fingerprint × Descriptor)} {p : Fingerprint × Descriptor}
    (h : p ∈ descriptors.foldl (fun m d => alistInsert m d.digest d) acc) :
    p ∈ acc ∨ (p.2 ∈ descriptors ∧ p.1 = p.2.digest) := by
  induction descriptors generalizing acc with
  | nil => exact Or.inl h
  | cons d rest ih =>
    simp only [List.foldl] at h
    rcases ih h with h' | h'
    · rcases mem_alistInsert h' with h'' | h''
      · right
        rw [h'']
        exact ⟨List.mem_cons_self _ _, rfl⟩
      · exact Or.inl h''
    · exact Or.inr ⟨List.mem_cons_of_mem _ h'.1, h'.2⟩

/-- Inserting a relay stored under its own fingerprint preserves the key
invariant. -/
theorem invariantHolds_alistInsert {m : List (Fingerprint × Relay)} {k : Fingerprint}
    {r : Relay} (hm : invariantHolds m = true) (hr : r.fingerprint = k) :
    invariantHolds (alistInsert m k r) = true := by
  induction m with
  | nil => simp [invariantHolds, alistInsert, hr]
  | cons hd tl ih =>
    obtain ⟨a, b⟩ := hd
    simp only [invariantHolds, List.all_cons, Bool.and_eq_true] at hm
    simp only [alistInsert]
    by_cases hak : a = k
    · rw [if_pos hak]
      simp only [invariantHolds, List.all_cons, Bool.and_eq_true]
      exact ⟨by simp [hr], hm.2⟩
    · rw [if_neg hak]
      simp only [invariantHolds, List.all_cons, Bool.and_eq_true]
      exact ⟨hm.1, ih hm.2⟩

/-- The family wiring only rewrites `family` fields, so it preserves the key
invariant. -/
theorem invariantHolds_wireFamilies {cliques : List (Fingerprint × Option Nat)}
    {m out : List (Fingerprint × Relay)} (h : wireFamilies cliques m = some out)
    (hm : invariantHolds m = true) : invariantHolds out = true := by
  induction m generalizing out with
  | nil =>
    simp only [wireFamilies] at h
    cases h
    rfl
  | cons hd tl ih =>
    obtain ⟨fp, r⟩ := hd
    simp only [wireFamilies] at h
    cases hl : alistLookup cliques fp with
    | none => rw [hl] at h; cases h
    | some fam =>
      rw [hl] at h
      cases hrec : wireFamilies cliques tl with
      | none => rw [hrec] at h; cases h
      | some rest' =>
        rw [hrec] at h
        simp only [Option.map_some] at h
        cases h
        simp only [invariantHolds, List.all_cons, Bool.and_eq_true] at hm ⊢
        exact ⟨hm.1, ih hrec hm.2⟩

/-- The join loop of `combine_documents` keeps the key invariant as long as
every descriptor binding whose key matches a consensus entry's digest holds
that entry's fingerprint. -/
theorem invariantHolds_combineRelayLoop {asnLookup : Nat → Option Nat} :
    ∀ {consRelays : List ShallowRelay} {descriptors : List (Fingerprint × Descriptor)}
      {acc out : List (Fingerprint × Relay)},
    (∀ s ∈ consRelays, ∀ kd ∈ descriptors, kd.1 = s.digest →
      (kd.2 : Descriptor).fingerprint = s.fingerprint) →
    invariantHolds acc = true →
    combineRelayLoop asnLookup consRelays descriptors acc = Except.ok out →
    invariantHolds out = true := by
  intro consRelays
  induction consRelays with
  | nil =>
    intro descriptors acc out _ hacc h
    simp only [combineRelayLoop] at h
    cases h
    exact hacc
  | cons s rest ih =>
    intro descriptors acc out hmatch hacc h
    simp only [combineRelayLoop] at h
    cases hl : alistLookup descriptors s.digest with
    | none => rw [hl] at h; cases h
    | some d =>
      rw [hl] at h
      have hd : d.fingerprint = s.fingerprint :=
        hmatch s (List.mem_cons_self _ _) (s.digest, d) (alistLookup_mem hl) rfl
      have hfp : (Relay.fromConsensusEntryAndDescriptor s d asnLookup).fingerprint
          = d.fingerprint := hd.symm
      refine ih ?_ (invariantHolds_alistInsert hacc hfp) h
      intro s' hs' kd hkd hkey
      exact hmatch s' (List.mem_cons_of_mem _ hs') kd (mem_alistRemove hkd) hkey

/-- C2 (counterexample): two consensus entries whose digest-matched
descriptors carry each other's fingerprints.  `combine_documents` succeeds
but keys each relay by the descriptor's fingerprint while storing the
consensus entry's fingerprint, so `relays[fp].fingerprint == fp` fails. -/
theorem c2_fingerprint_key_counterexample :
    (combineDocuments
        [shallowEntry "relayA" ⟨[1]⟩ ⟨[7]⟩, shallowEntry "relayB" ⟨[2]⟩ ⟨[8]⟩]
        [descEntry "relayA" ⟨[2]⟩ ⟨[7]⟩, descEntry "relayB" ⟨[1]⟩ ⟨[8]⟩]
        (fun _ => none) [(⟨[1]⟩, none), (⟨[2]⟩, none)]).map
      (fun e => e.map invariantHolds) = some (Except.ok false) := by
  rfl

/-- C2 (amended): the key invariant `relays[fp].fingerprint == fp` holds
after `combine_documents` provided every descriptor matched by digest
carries the same fingerprint as its consensus entry, and it is preserved by
the relay insertions of `scale_horizontally` and by the retain step of
`remove_relays_by`; without that proviso an entry is keyed by the
descriptor's fingerprint while storing the consensus entry's. -/
theorem c2_fingerprint_key_amended :
    (∀ (consRelays : List ShallowRelay) (descriptors : List Descriptor)
        (asnLookup : Nat → Option Nat) (cliques : List (Fingerprint × Option Nat))
        (out : List (Fingerprint × Relay)),
      (∀ s ∈ consRelays, ∀ d ∈ descriptors, d.digest = s.digest →
        d.fingerprint = s.fingerprint) →
      combineDocuments consRelays descriptors asnLookup cliques = some (Except.ok out) →
      invariantHolds out = true) ∧
    (∀ (relays : List (Fingerprint × Relay)) (newRelays : List Relay),
      invariantHolds relays = true →
      invariantHolds (insertNewRelays relays newRelays) = true) ∧
    (∀ (condition : Relay → Bool) (relays : List (Fingerprint × Relay)),
      invariantHolds relays = true →
      invariantHolds (retainRelays condition relays) = true) := by
  refine ⟨?_, ?_, ?_⟩
  · intro consRelays descriptors asnLookup cliques out hmatch hcomb
    unfold combineDocuments at hcomb
    cases hloop : combineRelayLoop asnLookup consRelays (descIndex descriptors) [] with
    | error d =>
      rw [hloop] at hcomb
      simp at hcomb
    | ok relays =>
      rw [hloop] at hcomb
      dsimp only at hcomb
      cases hwire : wireFamilies cliques relays with
      | none =>
        rw [hwire] at hcomb
        simp at hcomb
      | some relays' =>
        rw [hwire] at hcomb
        dsimp only at hcomb
        cases hcomb
        refine invariantHolds_wireFamilies hwire ?_
        refine invariantHolds_combineRelayLoop ?_ (by rfl) hloop
        intro s hs kd hkd hkey
        rcases @mem_descIndex_fold descriptors [] _ hkd with h0 | h0
        · cases h0
        · exact hmatch s hs kd.2 h0.1 (by rw [← h0.2, hkey])
  · intro relays newRelays hinv
    induction newRelays generalizing relays with
    | nil => exact hinv
    | cons r rest ih =>
      exact ih _ (invariantHolds_alistInsert hinv rfl)
  · intro condition relays hinv
    simp only [invariantHolds, List.all_eq_true] at hinv ⊢
    intro p hp
    exact hinv p (List.mem_of_mem_filter hp)

/-- C2 witness: the amended theorem applied to a one-relay consensus whose
descriptor carries the matching fingerprint, to a one-relay insertion, and
to a trivial retain. -/
theorem c2_fingerprint_key_amended_witness :
    invariantHolds [(⟨[1]⟩,
      { Relay.fromConsensusEntryAndDescriptor (shallowEntry "relayA" ⟨[1]⟩ ⟨[7]⟩)
          (descEntry "relayA" ⟨[1]⟩ ⟨[7]⟩) (fun _ => none) with family := none })] = true ∧
    invariantHolds (insertNewRelays [] [relayNoFlags]) = true ∧
    invariantHolds (retainRelays (fun _ => false) [(⟨[1]⟩, relayNoFlags)]) = true :=
  ⟨c2_fingerprint_key_amended.1 [shallowEntry "relayA" ⟨[1]⟩ ⟨[7]⟩]
      [descEntry "relayA" ⟨[1]⟩ ⟨[7]⟩] (fun _ => none) [(⟨[1]⟩, none)] _
      (by decide) rfl,
   c2_fingerprint_key_amended.2.1 [] [relayNoFlags] rfl,
   c2_fingerprint_key_amended.2.2 (fun _ => false) [(⟨[1]⟩, relayNoFlags)] (by rfl)⟩

end Torsynth

namespace Torsynth

/-! ## Lemmas on substring search -/

/-- At the index returned by `strFind`, the pattern matches. -/
theorem strFind_matches {text pattern : List Nat} {i : Nat}
    (h : strFind text pattern = some i) :
    leadingMatch pattern (text.drop i) = true := by
  induction text generalizing i with
  | nil =>
    simp only [strFind] at h
    by_cases hm : leadingMatch pattern []
    · rw [if_pos hm] at h
      cases h
      exact hm
    · rw [if_neg hm] at h
      cases h
  | cons c rest ih =>
    simp only [strFind] at h
    by_cases hm : leadingMatch pattern (c :: rest)
    · rw [if_pos hm] at h
      cases h
      exact hm
    · rw [if_neg hm] at h
      cases hr : strFind rest pattern with
      | none => rw [hr] at h; cases h
      | some i' =>
        rw [hr] at h
        dsimp only [Option.map] at h
        cases h
        exact ih hr

/-- `strFind` returns the least matching index: no smaller index matches. -/
theorem strFind_least {text pattern : List Nat} {i : Nat}
    (h : strFind text pattern = some i) :
    ∀ j, j < i → leadingMatch pattern (text.drop j) = false := by
  induction text generalizing i with
  | nil =>
    intro j hj
    simp only [strFind] at h
    by_cases hm : leadingMatch pattern []
    · rw [if_pos hm] at h
      cases h
      omega
    · rw [if_neg hm] at h
      cases h
  | cons c rest ih =>
    intro j hj
    simp only [strFind] at h
    by_cases hm : leadingMatch pattern (c :: rest)
    · rw [if_pos hm] at h
      cases h
      omega
    · rw [if_neg hm] at h
      cases hr : strFind rest pattern with
      | none => rw [hr] at h; cases h
      | some i' =>
        rw [hr] at h
        dsimp only [Option.map] at h
        cases h
        cases j with
        | zero => simpa using hm
        | succ j' => exact ih hr j' (by omega)

set_option maxRecDepth 1000000 in
/-- C7 (counterexample): on a body where the `"\nrouter-signature\n"`
delimiter occurs twice, the digest computed during parsing is SHA-1 of the
range ending at the *first* delimiter, not at the last one as the claim
states: both the hashed byte ranges and the resulting SHA-1 digests
differ. -/
theorem c7_digest_range_counterexample :
    getRawContentBetween c7RawTwice routerBytes routerSignatureBytes ≠
      specContentToLast c7RawTwice routerBytes routerSignatureBytes ∧
    descriptorDigest c7RawTwice ≠
      (specContentToLast c7RawTwice routerBytes routerSignatureBytes).map sha1 := by
  constructor
  · decide
  · decide

/-- C7 (amended): the digest computed during parsing is SHA-1 over the byte
range starting at the **first** occurrence of `"router"` and ending just
after the **first** occurrence of `"\nrouter-signature\n"` (both positions
are least matching indices). -/
theorem c7_digest_range_amended (raw content : List Nat)
    (h : getRawContentBetween raw routerBytes routerSignatureBytes = some content) :
    descriptorDigest raw = some (sha1 content) ∧
    ∃ s e, strFind raw routerBytes = some s ∧
      strFind raw routerSignatureBytes = some e ∧
      leadingMatch routerBytes (raw.drop s) = true ∧
      (∀ j, j < s → leadingMatch routerBytes (raw.drop j) = false) ∧
      leadingMatch routerSignatureBytes (raw.drop e) = true ∧
      (∀ j, j < e → leadingMatch routerSignatureBytes (raw.drop j) = false) ∧
      content = (raw.take (e + routerSignatureBytes.length)).drop s := by
  constructor
  · unfold descriptorDigest
    rw [h]
    rfl
  · unfold getRawContentBetween at h
    cases hs : strFind raw routerBytes with
    | none => rw [hs] at h; cases h
    | some s =>
      cases he : strFind raw routerSignatureBytes with
      | none => rw [hs, he] at h; cases h
      | some e =>
        rw [hs, he] at h
        dsimp only at h
        by_cases hle : s ≤ e + routerSignatureBytes.length
        · rw [if_pos hle] at h
          cases h
          exact ⟨s, e, rfl, rfl, strFind_matches hs, strFind_least hs,
            strFind_matches he, strFind_least he, rfl⟩
        · rw [if_neg hle] at h
          cases h

/-- C7 witness: the amended theorem applied to a one-delimiter body (the
extracted range is the whole string). -/
theorem c7_digest_range_amended_witness :
    descriptorDigest c7RawOnce = some (sha1 c7RawOnce) ∧
    ∃ s e, strFind c7RawOnce routerBytes = some s ∧
      strFind c7RawOnce routerSignatureBytes = some e ∧
      leadingMatch routerBytes (c7RawOnce.drop s) = true ∧
      (∀ j, j < s → leadingMatch routerBytes (c7RawOnce.drop j) = false) ∧
      leadingMatch routerSignatureBytes (c7RawOnce.drop e) = true ∧
      (∀ j, j < e → leadingMatch routerSignatureBytes (c7RawOnce.drop j) = false) ∧
      c7RawOnce = (c7RawOnce.take (e + routerSignatureBytes.length)).drop s :=
  c7_digest_range_amended c7RawOnce c7RawOnce (by decide)

end Torsynth

namespace Torsynth

/-! ## Lemmas for the rank-grouping analysis -/

/-- Lookup after an insertion: the new binding shadows the key, everything
else is unchanged. -/
theorem alistLookup_alistInsert {α β : Type} [DecidableEq α] (m : List (α × β)) (k : α)
    (v : β) (key : α) :
    alistLookup (alistInsert m k v) key = if k = key then some v else alistLookup m key := by
  induction m with
  | nil => simp only [alistInsert, alistLookup]
  | cons hd tl ih =>
    obtain ⟨a, b⟩ := hd
    simp only [alistInsert]
    by_cases hak : a = k
    · rw [if_pos hak]
      subst hak
      simp only [alistLookup]
      by_cases h : a = key
      · rw [if_pos h, if_pos h]
      · rw [if_neg h, if_neg h, if_neg h]
    · rw [if_neg hak]
      simp only [alistLookup]
      by_cases h : a = key
      · have hk : ¬ k = key := fun hkk => hak (h.trans hkk.symm)
        rw [if_pos h, if_neg hk, if_pos h]
      · rw [if_neg h, ih]
        by_cases hk : k = key
        · rw [if_pos hk, if_pos hk]
        · rw [if_neg hk, if_neg hk, if_neg h]

/-- Folding a chunk into the factor map does not touch other
fingerprints. -/
theorem lookup_chunkInsert_notMem {s : Rat} :
    ∀ (grp : List Relay) (m : List (Fingerprint × Rat)) (fp : Fingerprint),
    fp ∉ grp.map (fun r => r.fingerprint) →
    alistLookup (grp.foldl (fun m r => alistInsert m r.fingerprint s) m) fp =
      alistLookup m fp := by
  intro grp
  induction grp with
  | nil => intro m fp _; rfl
  | cons r rest ih =>
    intro m fp h
    simp only [List.map_cons, List.mem_cons, not_or] at h
    simp only [List.foldl_cons]
    rw [ih _ _ h.2, alistLookup_alistInsert]
    rw [if_neg (fun he => h.1 he.symm)]

/-- Folding a chunk into the factor map binds every chunk member to the
chunk's factor. -/
theorem lookup_chunkInsert_mem {s : Rat} :
    ∀ (grp : List Relay) (m : List (Fingerprint × Rat)) (fp : Fingerprint),
    fp ∈ grp.map (fun r => r.fingerprint) →
    alistLookup (grp.foldl (fun m r => alistInsert m r.fingerprint s) m) fp = some s := by
  intro grp
  induction grp with
  | nil => intro m fp h; simp at h
  | cons r rest ih =>
    intro m fp h
    simp only [List.foldl_cons]
    by_cases hfp : fp ∈ rest.map (fun r => r.fingerprint)
    · exact ih _ _ hfp
    · simp only [List.map_cons, List.mem_cons] at h
      have hfpr : fp = r.fingerprint := by tauto
      subst hfpr
      rw [lookup_chunkInsert_notMem _ _ _ hfp, alistLookup_alistInsert, if_pos rfl]

/-- Folding a list of factor/chunk pairs does not touch fingerprints outside
all the chunks. -/
theorem lookup_rankFold_notMem {fp : Fingerprint} :
    ∀ (pairs : List (Rat × List Relay)) (m : List (Fingerprint × Rat)),
    (∀ p ∈ pairs, fp ∉ (p.2 : List Relay).map (fun r => r.fingerprint)) →
    alistLookup
      (pairs.foldl (fun m p => p.2.foldl (fun m r => alistInsert m r.fingerprint p.1) m) m)
      fp = alistLookup m fp := by
  intro pairs
  induction pairs with
  | nil => intro m _; rfl
  | cons p rest ih =>
    intro m h
    simp only [List.foldl_cons]
    rw [ih _ (fun q hq => h q (List.mem_cons_of_mem _ hq)),
      lookup_chunkInsert_notMem _ _ _ (h p (List.mem_cons_self _ _))]

/-- `chunksOfFuel` is fuel-irrelevant once the fuel covers the list
length. -/
theorem chunksOfFuel_congr {α : Type} :
    ∀ (f1 f2 n : Nat) (l : List α), l.length ≤ f1 → l.length ≤ f2 →
    chunksOfFuel f1 n l = chunksOfFuel f2 n l := by
  intro f1
  induction f1 with
  | zero =>
    intro f2 n l h1 _
    cases l with
    | nil => cases f2 <;> rfl
    | cons x xs => simp at h1
  | succ f ih =>
    intro f2 n l h1 h2
    cases l with
    | nil => cases f2 <;> rfl
    | cons x xs =>
      cases f2 with
      | zero => simp at h2
      | succ f2' =>
        show (x :: xs.take (n - 1)) :: chunksOfFuel f n (xs.drop (n - 1))
          = (x :: xs.take (n - 1)) :: chunksOfFuel f2' n (xs.drop (n - 1))
        rw [ih f2' n (xs.drop (n - 1)) ?_ ?_]
        · simp only [List.length_drop]
          simp only [List.length_cons] at h1
          omega
        · simp only [List.length_drop]
          simp only [List.length_cons] at h2
          omega

/-- One-step unfolding of `chunksOf` on a nonempty list. -/
theorem chunksOf_cons {α : Type} (n : Nat) (x : α) (xs : List α) :
    chunksOf n (x :: xs) = (x :: xs.take (n - 1)) :: chunksOf n (xs.drop (n - 1)) := by
  show (x :: xs.take (n - 1)) :: chunksOfFuel xs.length n (xs.drop (n - 1)) = _
  unfold chunksOf
  rw [chunksOfFuel_congr xs.length (xs.drop (n - 1)).length n (xs.drop (n - 1)) ?_ le_rfl]
  simp [List.length_drop]

/-- Chunk members are members of the chunked list. -/
theorem mem_chunksOfFuel {α : Type} :
    ∀ (fuel n : Nat) (l : List α) (grp : List α), grp ∈ chunksOfFuel fuel n l →
    ∀ r ∈ grp, r ∈ l := by
  intro fuel
  induction fuel with
  | zero =>
    intro n l grp h
    cases l with
    | nil => simp [chunksOfFuel] at h
    | cons x xs => simp [chunksOfFuel] at h
  | succ f ih =>
    intro n l grp h
    cases l with
    | nil => simp [chunksOfFuel] at h
    | cons x xs =>
      rcases List.mem_cons.mp h with h' | h'
      · subst h'
        intro r hr
        rcases List.mem_cons.mp hr with h'' | h''
        · exact h'' ▸ List.mem_cons_self _ _
        · exact List.mem_cons_of_mem _ (List.mem_of_mem_take h'')
      · intro r hr
        exact List.mem_cons_of_mem _ (List.mem_of_mem_drop (ih n _ grp h' r hr))

/-- Chunk members are members of the chunked list. -/
theorem mem_chunksOf {α : Type} {n : Nat} {l : List α} {grp : List α}
    (h : grp ∈ chunksOf n l) : ∀ r ∈ grp, r ∈ l :=
  mem_chunksOfFuel l.length n l grp h

/-- An element found before index `c` belongs to the first `c` elements. -/
theorem mem_take_of_getElem {α : Type} :
    ∀ (l : List α) (i c : Nat) (r : α), i < c → l[i]? = some r → r ∈ l.take c := by
  intro l
  induction l with
  | nil =>
    intro i c r _ h
    simp at h
  | cons x xs ih =>
    intro i c r hic h
    cases i with
    | zero =>
      rw [List.getElem?_cons_zero] at h
      cases h
      cases c with
      | zero => omega
      | succ c' =>
        rw [List.take_succ_cons]
        exact List.mem_cons_self _ _
    | succ i' =>
      cases c with
      | zero => omega
      | succ c' =>
        rw [List.getElem?_cons_succ] at h
        rw [List.take_succ_cons]
        exact List.mem_cons_of_mem _ (ih i' c' r (by omega) h)

/-- In a list with pairwise-distinct fingerprints, a fingerprint found
before index `c` does not occur among the fingerprints from index `c`
onwards. -/
theorem not_mem_map_drop_of_getElem {l : List Relay} {i c : Nat} {r : Relay}
    (hnodup : (l.map (fun x => x.fingerprint)).Nodup)
    (hr : l[i]? = some r) (hic : i < c) :
    r.fingerprint ∉ (l.drop c).map (fun x => x.fingerprint) := by
  intro hmem
  have hilen : i < l.length := by
    by_contra hge
    rw [List.getElem?_eq_none (by omega)] at hr
    cases hr
  rw [List.map_drop] at hmem
  obtain ⟨j, hj⟩ := List.get?_of_mem hmem
  rw [List.get?_eq_getElem?, List.getElem?_drop] at hj
  have hi' : (l.map (fun x => x.fingerprint))[i]? = some r.fingerprint := by
    rw [List.getElem?_map, hr]
    rfl
  have heq : i = c + j := by
    refine List.getElem?_inj ?_ hnodup (hi'.trans hj.symm)
    simpa using hilen
  omega

/-- The factor-map fold of `scale_vertically_by_bandwidth_rank`: the relay
at position `i` of the sorted list receives the factor at index `i / c` of
the extended factor list, for every position covered by the available
chunks. -/
theorem rankFoldLookup (last : Rat) :
    ∀ (ss : List Rat) (l : List Relay) (c : Nat) (m : List (Fingerprint × Rat))
      (i : Nat) (r : Relay),
    1 ≤ c → i < c * (ss.length + 1) →
    (l.map (fun x => x.fingerprint)).Nodup →
    l[i]? = some r →
    alistLookup
      (((ss ++ [last]).zip (chunksOf c l)).foldl
        (fun m p => p.2.foldl (fun m r => alistInsert m r.fingerprint p.1) m) m)
      r.fingerprint = some ((ss ++ [last]).getD (i / c) 0) := by
  intro ss
  induction ss with
  | nil =>
    intro l c m i r hc hbound hnodup hr
    cases l with
    | nil => simp at hr
    | cons x xs =>
      obtain ⟨c', rfl⟩ : ∃ c', c = c' + 1 := ⟨c - 1, by omega⟩
      have hic : i < c' + 1 := by
        have hmul : (c' + 1) * (List.length ([] : List Rat) + 1) = c' + 1 := by simp
        rw [hmul] at hbound
        exact hbound
      have hfold :
          ((([] : List Rat) ++ [last]).zip (chunksOf (c' + 1) (x :: xs))).foldl
            (fun m p => p.2.foldl (fun m r => alistInsert m r.fingerprint p.1) m) m
          = (x :: xs.take c').foldl (fun m r => alistInsert m r.fingerprint last) m := by
        rw [chunksOf_cons]
        rfl
      rw [hfold, Nat.div_eq_of_lt hic]
      have hmem0 : r ∈ x :: xs.take c' := by
        have htake : x :: xs.take c' = (x :: xs).take (c' + 1) := by
          rw [List.take_succ_cons]
        rw [htake]
        exact mem_take_of_getElem _ i (c' + 1) r hic hr
      exact lookup_chunkInsert_mem _ _ _ (List.mem_map.mpr ⟨r, hmem0, rfl⟩)
  | cons s ss' ih =>
    intro l c m i r hc hbound hnodup hr
    cases l with
    | nil => simp at hr
    | cons x xs =>
      obtain ⟨c', rfl⟩ : ∃ c', c = c' + 1 := ⟨c - 1, by omega⟩
      have hfold :
          (((s :: ss') ++ [last]).zip (chunksOf (c' + 1) (x :: xs))).foldl
            (fun m p => p.2.foldl (fun m r => alistInsert m r.fingerprint p.1) m) m
          = ((ss' ++ [last]).zip (chunksOf (c' + 1) (xs.drop c'))).foldl
              (fun m p => p.2.foldl (fun m r => alistInsert m r.fingerprint p.1) m)
              ((x :: xs.take c').foldl (fun m r => alistInsert m r.fingerprint s) m) := by
        rw [chunksOf_cons]
        rfl
      rw [hfold]
      by_cases hic : i < c' + 1
      · have hdiv : i / (c' + 1) = 0 := Nat.div_eq_of_lt hic
        rw [hdiv]
        have hnotin : ∀ p ∈ (ss' ++ [last]).zip (chunksOf (c' + 1) (xs.drop c')),
            r.fingerprint ∉ (p.2 : List Relay).map (fun y => y.fingerprint) := by
          intro p hp hmem
          have hp2 : (p.2 : List Relay) ∈ chunksOf (c' + 1) (xs.drop c') :=
            (List.of_mem_zip hp).2
          simp only [List.mem_map] at hmem
          obtain ⟨q, hq, hqfp⟩ := hmem
          have hq' : q ∈ (x :: xs).drop (c' + 1) := mem_chunksOf hp2 q hq
          have hrmem : r.fingerprint ∈ ((x :: xs).drop (c' + 1)).map (fun y => y.fingerprint) :=
            List.mem_map.mpr ⟨q, hq', hqfp⟩
          exact not_mem_map_drop_of_getElem hnodup hr hic hrmem
        rw [lookup_rankFold_notMem _ _ hnotin]
        have hmem0 : r ∈ x :: xs.take c' := by
          have htake : x :: xs.take c' = (x :: xs).take (c' + 1) := by
            rw [List.take_succ_cons]
          rw [htake]
          exact mem_take_of_getElem _ i (c' + 1) r hic hr
        exact lookup_chunkInsert_mem _ _ _ (List.mem_map.mpr ⟨r, hmem0, rfl⟩)
      · have hle : c' + 1 ≤ i := by omega
        have hdiv : i / (c' + 1) = (i - (c' + 1)) / (c' + 1) + 1 := by
          conv_lhs => rw [show i = (i - (c' + 1)) + (c' + 1) by omega]
          rw [Nat.add_div_right _ (by omega)]
        have hgetD : ((s :: ss') ++ [last]).getD (i / (c' + 1)) 0
            = (ss' ++ [last]).getD ((i - (c' + 1)) / (c' + 1)) 0 := by
          rw [hdiv]
          rfl
        rw [hgetD]
        have hr' : (xs.drop c')[i - (c' + 1)]? = some r := by
          show ((x :: xs).drop (c' + 1))[i - (c' + 1)]? = some r
          rw [List.getElem?_drop, show c' + 1 + (i - (c' + 1)) = i by omega]
          exact hr
        refine ih (xs.drop c') (c' + 1) _ (i - (c' + 1)) r hc ?_ ?_ hr'
        · have hmul : (c' + 1) * (ss'.length + 1 + 1)
              = (c' + 1) * (ss'.length + 1) + (c' + 1) := by ring
          simp only [List.length_cons] at hbound
          rw [hmul] at hbound
          omega
        · show (((x :: xs).drop (c' + 1)).map (fun x => x.fingerprint)).Nodup
          rw [List.map_drop]
          exact (List.drop_sublist _ _).nodup hnodup

/-- Inserting into a weight-sorted list adds one element. -/
theorem length_insertSorted (r : Relay) :
    ∀ (l : List Relay), (insertSorted r l).length = l.length + 1 := by
  intro l
  induction l with
  | nil => rfl
  | cons x xs ih =>
    simp only [insertSorted]
    by_cases h : r.bandwidth_weight ≤ x.bandwidth_weight
    · rw [if_pos h]
      rfl
    · rw [if_neg h]
      simp only [List.length_cons, ih]

/-- Sorting by weight preserves the number of relays. -/
theorem length_sortByWeight (relays : List Relay) :
    (sortByWeight relays).length = relays.length := by
  unfold sortByWeight
  induction relays with
  | nil => rfl
  | cons x xs ih =>
    simp only [List.foldr_cons, length_insertSorted, List.length_cons, ih]

end Torsynth

namespace Torsynth

/-- C6 (counterexample): with 7 relays and 4 factors the code's chunking
(`chunks(7 / 4 = 1)` zipped with only 5 factors) leaves the relay at sorted
position 5 without a factor — `bandwidth_to_scale[&fp]` panics — whereas
the claim says the remainder takes the last factor; and with the single
factor `1.0` a relay of weight `2^24 + 1` is written back as `2^24`
(`f32` rounding), not `floor(old · 1) = 2^24 + 1`. -/
theorem c6_rank_grouping_counterexample :
    rankFactorOf c6Relays [1, 2, 3, 4] ⟨[6]⟩ = some none ∧
    ((sortByWeight c6Relays)[5]?).map (fun r => r.fingerprint) = some ⟨[6]⟩ ∧
    scaledWeightFactorOne 16777217 = 16777216 ∧
    scaledWeightFactorOne 16777217 ≠ 16777217 := by
  refine ⟨by decide, by decide, by decide, by decide⟩

/-- C6 (amended): when `N mod k ≤ N / k` (in particular for one factor), the
relays sorted ascending by weight are split into consecutive groups of size
`N / k`, the relay at sorted position `i` receiving factor
`scales[min(i / (N/k), k-1)]` — so the final factor also covers the
remainder; the multiplication itself is performed in `f32` and truncated,
not as an exact integer floor. -/
theorem c6_rank_grouping_amended (relays : List Relay) (scales : List Rat)
    (m : List (Fingerprint × Rat)) (i : Nat) (r : Relay)
    (hnodup : ((sortByWeight relays).map (fun x => x.fingerprint)).Nodup)
    (hm : bandwidthToScale relays scales = some m)
    (hrem : relays.length % scales.length ≤ relays.length / scales.length)
    (hr : (sortByWeight relays)[i]? = some r) :
    alistLookup m r.fingerprint =
      some (scales.getD (min (i / (relays.length / scales.length)) (scales.length - 1)) 0) := by
  unfold bandwidthToScale at hm
  by_cases h1 : scales.length < 1
  · simp [h1] at hm
  by_cases h2 : relays.length < scales.length
  · simp [h1, h2] at hm
  simp only [if_neg h1, if_neg h2, Option.some.injEq] at hm
  subst hm
  have hk1 : 1 ≤ scales.length := by omega
  have hNk : scales.length ≤ relays.length := by omega
  have hc : 1 ≤ relays.length / scales.length :=
    (Nat.one_le_div_iff (by omega)).mpr hNk
  have hilen : i < (sortByWeight relays).length := by
    by_contra hge
    rw [List.getElem?_eq_none (by omega)] at hr
    cases hr
  have hi : i < relays.length := by
    rw [length_sortByWeight] at hilen
    exact hilen
  have hcover : relays.length ≤ (relays.length / scales.length) * (scales.length + 1) := by
    have hdm := Nat.div_add_mod relays.length scales.length
    calc relays.length
        = scales.length * (relays.length / scales.length) + relays.length % scales.length :=
          hdm.symm
      _ ≤ scales.length * (relays.length / scales.length) + relays.length / scales.length := by
          omega
      _ = (relays.length / scales.length) * (scales.length + 1) := by ring
  have hbound : i < (relays.length / scales.length) * (scales.length + 1) := by omega
  have hmain := rankFoldLookup (scales.getD (scales.length - 1) 0) scales
    (sortByWeight relays) (relays.length / scales.length) [] i r hc hbound hnodup hr
  have hidiv : i / (relays.length / scales.length) ≤ scales.length := by
    have hlt : i / (relays.length / scales.length) < scales.length + 1 := by
      rw [Nat.div_lt_iff_lt_mul (by omega)]
      calc i < (relays.length / scales.length) * (scales.length + 1) := hbound
        _ = (scales.length + 1) * (relays.length / scales.length) := by ring
    omega
  have htail : (scales ++ [scales.getD (scales.length - 1) 0]).getD
      (i / (relays.length / scales.length)) 0
      = scales.getD
          (min (i / (relays.length / scales.length)) (scales.length - 1)) 0 := by
    by_cases hlt : i / (relays.length / scales.length) < scales.length
    · rw [List.getD_append _ _ _ _ hlt, min_eq_left (by omega)]
    · have heq : i / (relays.length / scales.length) = scales.length := by omega
      rw [heq, List.getD_append_right _ _ _ _ (le_refl _), min_eq_right (by omega)]
      simp
  rw [htail] at hmain
  exact hmain

/-- C6 witness: the amended theorem applied to four relays and two factors
(the relay at sorted position 3 receives the second factor). -/
theorem c6_rank_grouping_amended_witness :
    alistLookup [(⟨[1]⟩, (2 : Rat)), (⟨[2]⟩, 2), (⟨[3]⟩, 3), (⟨[4]⟩, 3)]
      (c6Relay 4).fingerprint =
      some (([2, 3] : List Rat).getD
        (min (3 / (c6RelaysSmall.length / ([2, 3] : List Rat).length))
          (([2, 3] : List Rat).length - 1)) 0) :=
  c6_rank_grouping_amended c6RelaysSmall [2, 3]
    [(⟨[1]⟩, 2), (⟨[2]⟩, 2), (⟨[3]⟩, 3), (⟨[4]⟩, 3)] 3 (c6Relay 4)
    (by decide) (by decide) (by decide) (by decide)

end Torsynth

namespace Torsynth

/-! ## Lemmas for the fingerprint encoding round-trips -/

/-- Dropping a prefix never lengthens a list. -/
theorem dropWhileLengthLe {α : Type} (p : α → Bool) :
    ∀ (l : List α), (l.dropWhile p).length ≤ l.length := by
  intro l
  induction l with
  | nil => simp
  | cons x xs ih =>
    rw [List.dropWhile_cons]
    by_cases h : p x = true
    · rw [if_pos h]
      exact Nat.le_succ_of_le ih
    · rw [if_neg h]

/-- Lower-case hex digits parse back to their value and are not
whitespace. -/
theorem hexDigitLower_spec : ∀ v : Fin 16,
    hexDigitVal (hexDigitLower v.val) = some v.val ∧
    (hexDigitLower v.val).isWhitespace = false := by
  decide

/-- Upper-case hex digits parse back to their value and are not
whitespace. -/
theorem hexDigitUpper_spec : ∀ v : Fin 16,
    hexDigitVal (hexDigitUpper v.val) = some v.val ∧
    (hexDigitUpper v.val).isWhitespace = false := by
  decide

/-- Base64 alphabet characters decode to their value and are never the
padding character. -/
theorem b64Char_spec : ∀ v : Fin 64,
    b64Val (b64Char v.val) = some v.val ∧ b64Char v.val ≠ '=' := by
  decide

/-- `fromStrHexFuel` is fuel-irrelevant once the fuel covers the input
length. -/
theorem fromStrHexFuel_congr : ∀ (f1 f2 : Nat) (s : List Char),
    s.length ≤ f1 → s.length ≤ f2 → fromStrHexFuel f1 s = fromStrHexFuel f2 s := by
  intro f1
  induction f1 with
  | zero =>
    intro f2 s h1 _
    cases s with
    | nil => cases f2 <;> rfl
    | cons c cs => simp at h1
  | succ g1 ih =>
    intro f2 s h1 h2
    cases s with
    | nil => cases f2 <;> rfl
    | cons c cs =>
      simp only [List.length_cons] at h1 h2
      obtain ⟨g2, rfl⟩ : ∃ g2, f2 = g2 + 1 := ⟨f2 - 1, by omega⟩
      simp only [fromStrHexFuel]
      cases hdw : (c :: cs).dropWhile Char.isWhitespace with
      | nil => rfl
      | cons c1 t1 =>
        cases t1 with
        | nil => rfl
        | cons c2 rest =>
          dsimp only
          have hrest : rest.length ≤ g1 ∧ rest.length ≤ g2 := by
            have hlen := dropWhileLengthLe Char.isWhitespace (c :: cs)
            rw [hdw] at hlen
            simp only [List.length_cons] at hlen
            omega
          cases hexDigitVal c1 with
          | none => rfl
          | some hi =>
            cases hexDigitVal c2 with
            | none => rfl
            | some lo => rw [ih g2 rest hrest.1 hrest.2]

/-- One step of the `from_str_hex` loop on two hex digits. -/
theorem fromStrHexFuel_step {c1 c2 : Char} {hi lo : Nat} (rest : List Char) (fuel : Nat)
    (hw : c1.isWhitespace = false) (h1 : hexDigitVal c1 = some hi)
    (h2 : hexDigitVal c2 = some lo) :
    fromStrHexFuel (fuel + 1) (c1 :: c2 :: rest)
      = (fromStrHexFuel fuel rest).map (fun bs => (16 * hi + lo) :: bs) := by
  simp only [fromStrHexFuel, List.dropWhile_cons, hw]
  simp only [Bool.false_eq_true, if_false, h1, h2]

/-- The `from_str_hex` loop skips a leading space when input remains. -/
theorem fromStrHexFuel_space (s : List Char) (fuel : Nat) (hs : s ≠ []) :
    fromStrHexFuel (fuel + 1) (' ' :: s) = fromStrHexFuel (fuel + 1) s := by
  cases s with
  | nil => exact absurd rfl hs
  | cons c cs =>
    simp only [fromStrHexFuel]
    rw [show (' ' :: c :: cs).dropWhile Char.isWhitespace
        = (c :: cs).dropWhile Char.isWhitespace from by
      rw [List.dropWhile_cons, if_pos (by decide)]]

/-- Round trip of the plain lower-case hex rendering through the
`from_str_hex` loop. -/
theorem hexRoundtripAux : ∀ (blob : List Nat), (∀ b ∈ blob, b < 256) →
    ∀ fuel, (toStringHex ⟨blob⟩).length ≤ fuel →
    fromStrHexFuel fuel (toStringHex ⟨blob⟩) = some blob := by
  intro blob
  induction blob with
  | nil =>
    intro _ fuel _
    cases fuel <;> rfl
  | cons b rest ih =>
    intro h fuel hfuel
    have hexp : toStringHex ⟨b :: rest⟩
        = hexDigitLower (b / 16) :: hexDigitLower (b % 16) :: toStringHex ⟨rest⟩ := rfl
    rw [hexp] at hfuel ⊢
    obtain ⟨g, rfl⟩ : ∃ g, fuel = g + 1 :=
      ⟨fuel - 1, by simp only [List.length_cons] at hfuel; omega⟩
    have hb : b < 256 := h b (List.mem_cons_self _ _)
    have hs1 := hexDigitLower_spec ⟨b / 16, by omega⟩
    have hs2 := hexDigitLower_spec ⟨b % 16, by omega⟩
    rw [fromStrHexFuel_step _ _ hs1.2 hs1.1 hs2.1]
    rw [fromStrHexFuel_congr g (toStringHex ⟨rest⟩).length _
      (by simp only [List.length_cons] at hfuel; omega) le_rfl]
    rw [ih (fun x hx => h x (List.mem_cons_of_mem _ hx)) _ le_rfl]
    have harith : 16 * (b / 16) + b % 16 = b := by omega
    simp [harith]

end Torsynth

namespace Torsynth

/-- Shape of the hex-blocks rendering on a list of at least three bytes. -/
theorem blocksShapeCons (b0 b1 : Nat) (rest : List Nat) (hrest : rest ≠ []) :
    toStringHexBlocks ⟨b0 :: b1 :: rest⟩
      = hexDigitUpper (b0 / 16) :: hexDigitUpper (b0 % 16) :: hexDigitUpper (b1 / 16) ::
        hexDigitUpper (b1 % 16) :: ' ' :: toStringHexBlocks ⟨rest⟩ := by
  cases rest with
  | nil => exact absurd rfl hrest
  | cons r rs =>
    unfold toStringHexBlocks
    rw [show chunksOf 2 (b0 :: b1 :: r :: rs) = [b0, b1] :: chunksOf 2 (r :: rs) from by
      rw [chunksOf_cons]
      rfl]
    rw [chunksOf_cons 2 r rs]
    rfl

/-- The hex-blocks rendering of a nonempty byte list is nonempty. -/
theorem blocksNeNil : ∀ (b : Nat) (t : List Nat), toStringHexBlocks ⟨b :: t⟩ ≠ [] := by
  intro b t
  cases t with
  | nil => simp [show toStringHexBlocks ⟨[b]⟩
      = [hexDigitUpper (b / 16), hexDigitUpper (b % 16)] from rfl]
  | cons b1 t2 =>
    cases t2 with
    | nil => simp [show toStringHexBlocks ⟨[b, b1]⟩
        = [hexDigitUpper (b / 16), hexDigitUpper (b % 16),
           hexDigitUpper (b1 / 16), hexDigitUpper (b1 % 16)] from rfl]
    | cons r rs =>
      rw [blocksShapeCons b b1 (r :: rs) (by simp)]
      simp

/-- Round trip of the upper-case blocks rendering through the
`from_str_hex` loop. -/
theorem blocksRoundtripAux : ∀ (n : Nat) (blob : List Nat), blob.length ≤ n →
    (∀ b ∈ blob, b < 256) →
    ∀ fuel, (toStringHexBlocks ⟨blob⟩).length ≤ fuel →
    fromStrHexFuel fuel (toStringHexBlocks ⟨blob⟩) = some blob := by
  intro n
  induction n with
  | zero =>
    intro blob hlen h fuel hfuel
    cases blob with
    | nil => cases fuel <;> rfl
    | cons b t => simp at hlen
  | succ n ih =>
    intro blob hlen h fuel hfuel
    cases blob with
    | nil => cases fuel <;> rfl
    | cons b0 tail =>
      cases tail with
      | nil =>
        have hb : b0 < 256 := h b0 (List.mem_cons_self _ _)
        have hshape : toStringHexBlocks ⟨[b0]⟩
            = [hexDigitUpper (b0 / 16), hexDigitUpper (b0 % 16)] := rfl
        rw [hshape] at hfuel ⊢
        obtain ⟨g, rfl⟩ : ∃ g, fuel = g + 1 :=
          ⟨fuel - 1, by simp only [List.length_cons] at hfuel; omega⟩
        have hs1 := hexDigitUpper_spec ⟨b0 / 16, by omega⟩
        have hs2 := hexDigitUpper_spec ⟨b0 % 16, by omega⟩
        rw [fromStrHexFuel_step _ _ hs1.2 hs1.1 hs2.1]
        have ha : 16 * (b0 / 16) + b0 % 16 = b0 := by omega
        simp [fromStrHexFuel, ha]
      | cons b1 rest =>
        have hb0 : b0 < 256 := h b0 (List.mem_cons_self _ _)
        have hb1 : b1 < 256 := h b1 (List.mem_cons_of_mem _ (List.mem_cons_self _ _))
        have hs0h := hexDigitUpper_spec ⟨b0 / 16, by omega⟩
        have hs0l := hexDigitUpper_spec ⟨b0 % 16, by omega⟩
        have hs1h := hexDigitUpper_spec ⟨b1 / 16, by omega⟩
        have hs1l := hexDigitUpper_spec ⟨b1 % 16, by omega⟩
        have ha0 : 16 * (b0 / 16) + b0 % 16 = b0 := by omega
        have ha1 : 16 * (b1 / 16) + b1 % 16 = b1 := by omega
        cases rest with
        | nil =>
          have hshape : toStringHexBlocks ⟨[b0, b1]⟩
              = [hexDigitUpper (b0 / 16), hexDigitUpper (b0 % 16),
                 hexDigitUpper (b1 / 16), hexDigitUpper (b1 % 16)] := rfl
          rw [hshape] at hfuel ⊢
          obtain ⟨g, rfl⟩ : ∃ g, fuel = g + 1 + 1 :=
            ⟨fuel - 2, by simp only [List.length_cons] at hfuel; omega⟩
          rw [fromStrHexFuel_step _ _ hs0h.2 hs0h.1 hs0l.1]
          rw [fromStrHexFuel_step _ _ hs1h.2 hs1h.1 hs1l.1]
          simp [fromStrHexFuel, ha0, ha1]
        | cons r2 rs2 =>
          have hshape := blocksShapeCons b0 b1 (r2 :: rs2) (by simp)
          rw [hshape] at hfuel ⊢
          obtain ⟨g, rfl⟩ : ∃ g, fuel = g + 1 + 1 + 1 :=
            ⟨fuel - 3, by simp only [List.length_cons] at hfuel; omega⟩
          rw [fromStrHexFuel_step _ _ hs0h.2 hs0h.1 hs0l.1]
          rw [fromStrHexFuel_step _ _ hs1h.2 hs1h.1 hs1l.1]
          rw [fromStrHexFuel_space _ _ (blocksNeNil r2 rs2)]
          rw [fromStrHexFuel_congr (g + 1) (toStringHexBlocks ⟨r2 :: rs2⟩).length _
            (by simp only [List.length_cons] at hfuel; omega) le_rfl]
          rw [ih (r2 :: rs2) (by simp only [List.length_cons] at hlen ⊢; omega)
            (fun x hx => h x (List.mem_cons_of_mem _ (List.mem_cons_of_mem _ hx))) _ le_rfl]
          simp [ha0, ha1]

end Torsynth

namespace Torsynth

/-- Trimming `=` leaves a string with a different final character alone. -/
theorem trimEqEnd_last_ne (s : List Char) (z : Char) (hz : z ≠ '=') :
    trimEqEnd (s ++ [z]) = s ++ [z] := by
  unfold trimEqEnd
  rw [List.reverse_append]
  show (List.dropWhile _ (z :: s.reverse)).reverse = _
  rw [List.dropWhile_cons, if_neg (by simp [hz])]
  simp

/-- Trimming two `=` pads drops exactly them. -/
theorem trimEqEnd_two_pads (x y : Char) (hy : y ≠ '=') :
    trimEqEnd [x, y, '=', '='] = [x, y] := by
  unfold trimEqEnd
  show (List.dropWhile _ ['=', '=', y, x]).reverse = _
  rw [List.dropWhile_cons, if_pos (by decide), List.dropWhile_cons, if_pos (by decide),
    List.dropWhile_cons, if_neg (by simp [hy])]
  rfl

/-- Trimming distributes over an untrimmed prefix. -/
theorem trimEqEnd_append (a b : List Char) (hb : trimEqEnd b ≠ []) :
    trimEqEnd (a ++ b) = a ++ trimEqEnd b := by
  unfold trimEqEnd at hb ⊢
  rw [List.reverse_append, List.dropWhile_append, if_neg ?_]
  · rw [List.reverse_append, List.reverse_reverse]
  · intro hempty
    apply hb
    rw [List.isEmpty_iff] at hempty
    rw [hempty]
    rfl

/-- Trimming a single trailing pad. -/
theorem trimEqEnd_one_pad (x y z : Char) (hz : z ≠ '=') :
    trimEqEnd [x, y, z, '='] = [x, y, z] := by
  unfold trimEqEnd
  show (List.dropWhile _ ['=', z, y, x]).reverse = _
  rw [List.dropWhile_cons, if_pos (by decide), List.dropWhile_cons, if_neg (by simp [hz])]
  rfl

/-- The unpadded rendering of one byte. -/
theorem b64TrimOne (b : Nat) :
    trimEqEnd (b64EncodePadded [b]) = [b64Char (b / 4), b64Char (b % 4 * 16)] := by
  rw [show b64EncodePadded [b]
      = [b64Char (b / 4), b64Char (b % 4 * 16), '=', '='] from rfl]
  exact trimEqEnd_two_pads _ _ (b64Char_spec ⟨b % 4 * 16, by omega⟩).2

/-- The unpadded rendering of two bytes. -/
theorem b64TrimTwo (b0 b1 : Nat) :
    trimEqEnd (b64EncodePadded [b0, b1])
      = [b64Char (b0 / 4), b64Char (b0 % 4 * 16 + b1 / 16), b64Char (b1 % 16 * 4)] := by
  rw [show b64EncodePadded [b0, b1]
      = [b64Char (b0 / 4), b64Char (b0 % 4 * 16 + b1 / 16), b64Char (b1 % 16 * 4), '=']
      from rfl]
  exact trimEqEnd_one_pad _ _ _ (b64Char_spec ⟨b1 % 16 * 4, by omega⟩).2

/-- The rendering of exactly three bytes needs no trimming. -/
theorem b64TrimThree (b0 b1 b2 : Nat) :
    trimEqEnd (b64EncodePadded [b0, b1, b2])
      = [b64Char (b0 / 4), b64Char (b0 % 4 * 16 + b1 / 16),
         b64Char (b1 % 16 * 4 + b2 / 64), b64Char (b2 % 64)] := by
  rw [show b64EncodePadded [b0, b1, b2]
      = [b64Char (b0 / 4), b64Char (b0 % 4 * 16 + b1 / 16),
         b64Char (b1 % 16 * 4 + b2 / 64)] ++ [b64Char (b2 % 64)] from rfl]
  exact trimEqEnd_last_ne _ _ (b64Char_spec ⟨b2 % 64, by omega⟩).2

/-- The unpadded base64 rendering of a nonempty byte list is nonempty. -/
theorem b64NeNil : ∀ (n : Nat) (b : Nat) (t : List Nat), t.length ≤ n →
    trimEqEnd (b64EncodePadded (b :: t)) ≠ [] := by
  intro n
  induction n with
  | zero =>
    intro b t hlen
    cases t with
    | nil =>
      rw [b64TrimOne]
      simp
    | cons x xs => simp at hlen
  | succ n ih =>
    intro b t hlen
    cases t with
    | nil =>
      rw [b64TrimOne]
      simp
    | cons b1 t2 =>
      cases t2 with
      | nil =>
        rw [b64TrimTwo]
        simp
      | cons b2 t3 =>
        cases t3 with
        | nil =>
          rw [b64TrimThree]
          simp
        | cons b3 t4 =>
          rw [show b64EncodePadded (b :: b1 :: b2 :: b3 :: t4)
              = [b64Char (b / 4), b64Char (b % 4 * 16 + b1 / 16),
                 b64Char (b1 % 16 * 4 + b2 / 64), b64Char (b2 % 64)]
                ++ b64EncodePadded (b3 :: t4) from rfl]
          rw [trimEqEnd_append _ _
            (ih b3 t4 (by simp only [List.length_cons] at hlen; omega))]
          simp

/-- Round trip of the unpadded base64 rendering through `base64::decode`. -/
theorem b64RoundtripAux : ∀ (n : Nat) (blob : List Nat), blob.length ≤ n →
    (∀ b ∈ blob, b < 256) →
    b64Decode (trimEqEnd (b64EncodePadded blob)) = some blob := by
  intro n
  induction n with
  | zero =>
    intro blob hlen h
    cases blob with
    | nil => rfl
    | cons b t => simp at hlen
  | succ n ih =>
    intro blob hlen h
    cases blob with
    | nil => rfl
    | cons b0 t =>
      have hb0 : b0 < 256 := h b0 (List.mem_cons_self _ _)
      cases t with
      | nil =>
        rw [b64TrimOne]
        have h1 := (b64Char_spec ⟨b0 / 4, by omega⟩).1
        have h2 := (b64Char_spec ⟨b0 % 4 * 16, by omega⟩).1
        simp only [b64Decode, h1, h2]
        rw [if_pos (by omega)]
        rw [show b0 / 4 * 4 + b0 % 4 * 16 / 16 = b0 by omega]
      | cons b1 t2 =>
        have hb1 : b1 < 256 := h b1 (List.mem_cons_of_mem _ (List.mem_cons_self _ _))
        cases t2 with
        | nil =>
          rw [b64TrimTwo]
          have h1 := (b64Char_spec ⟨b0 / 4, by omega⟩).1
          have h2 := (b64Char_spec ⟨b0 % 4 * 16 + b1 / 16, by omega⟩).1
          have h3 := (b64Char_spec ⟨b1 % 16 * 4, by omega⟩).1
          simp only [b64Decode, h1, h2, h3]
          rw [if_pos (by omega)]
          rw [show b0 / 4 * 4 + (b0 % 4 * 16 + b1 / 16) / 16 = b0 by omega]
          rw [show (b0 % 4 * 16 + b1 / 16) % 16 * 16 + b1 % 16 * 4 / 4 = b1 by omega]
        | cons b2 t3 =>
          have hb2 : b2 < 256 := h b2
            (List.mem_cons_of_mem _ (List.mem_cons_of_mem _ (List.mem_cons_self _ _)))
          have h1 := (b64Char_spec ⟨b0 / 4, by omega⟩).1
          have h2 := (b64Char_spec ⟨b0 % 4 * 16 + b1 / 16, by omega⟩).1
          have h3 := (b64Char_spec ⟨b1 % 16 * 4 + b2 / 64, by omega⟩).1
          have h4 := (b64Char_spec ⟨b2 % 64, by omega⟩).1
          have ha1 : b0 / 4 * 4 + (b0 % 4 * 16 + b1 / 16) / 16 = b0 := by omega
          have ha2 : (b0 % 4 * 16 + b1 / 16) % 16 * 16 + (b1 % 16 * 4 + b2 / 64) / 4 = b1 := by
            omega
          have ha3 : (b1 % 16 * 4 + b2 / 64) % 4 * 64 + b2 % 64 = b2 := by omega
          cases t3 with
          | nil =>
            rw [b64TrimThree]
            simp only [b64Decode, h1, h2, h3, h4]
            rw [ha1, ha2, ha3]
            rfl
          | cons b3 t4 =>
            rw [show b64EncodePadded (b0 :: b1 :: b2 :: b3 :: t4)
                = [b64Char (b0 / 4), b64Char (b0 % 4 * 16 + b1 / 16),
                   b64Char (b1 % 16 * 4 + b2 / 64), b64Char (b2 % 64)]
                  ++ b64EncodePadded (b3 :: t4) from rfl]
            rw [trimEqEnd_append _ _ (b64NeNil t4.length b3 t4 le_rfl)]
            show b64Decode (b64Char (b0 / 4) :: b64Char (b0 % 4 * 16 + b1 / 16) ::
              b64Char (b1 % 16 * 4 + b2 / 64) :: b64Char (b2 % 64) ::
              trimEqEnd (b64EncodePadded (b3 :: t4))) = _
            simp only [b64Decode, h1, h2, h3, h4]
            rw [ih (b3 :: t4) (by simp only [List.length_cons] at hlen ⊢; omega)
              (fun x hx => h x (List.mem_cons_of_mem _ (List.mem_cons_of_mem _
                (List.mem_cons_of_mem _ hx))))]
            rw [ha1, ha2, ha3]
            rfl

end Torsynth

namespace Torsynth

/-- C8: rendering a `Fingerprint` and re-parsing the rendering in the same
encoding yields an equal fingerprint, for each of the three encodings:
lower-case hex via `to_string_hex`/`from_str_hex`, upper-case
space-separated hex blocks via `to_string_hex_blocks`/`from_str_hex`, and
unpadded base64 via `to_string_b64`/`from_str_b64`. -/
theorem c8_fingerprint_roundtrip (blob : List Nat) (h : ∀ b ∈ blob, b < 256) :
    fromStrHex (toStringHex ⟨blob⟩) = some ⟨blob⟩ ∧
    fromStrHex (toStringHexBlocks ⟨blob⟩) = some ⟨blob⟩ ∧
    fromStrB64 (toStringB64 ⟨blob⟩) = some ⟨blob⟩ := by
  refine ⟨?_, ?_, ?_⟩
  · unfold fromStrHex
    rw [hexRoundtripAux blob h _ le_rfl]
    rfl
  · unfold fromStrHex
    rw [blocksRoundtripAux blob.length blob le_rfl h _ le_rfl]
    rfl
  · unfold fromStrB64 toStringB64
    rw [b64RoundtripAux blob.length blob le_rfl h]
    rfl

/-- C8 witness: the round trips at the concrete fingerprint
`12ff0b42` (the byte blob of the repository's own unit test). -/
theorem c8_fingerprint_roundtrip_witness :
    fromStrHex (toStringHex ⟨[18, 255, 11, 66]⟩) = some ⟨[18, 255, 11, 66]⟩ ∧
    fromStrHex (toStringHexBlocks ⟨[18, 255, 11, 66]⟩) = some ⟨[18, 255, 11, 66]⟩ ∧
    fromStrB64 (toStringB64 ⟨[18, 255, 11, 66]⟩) = some ⟨[18, 255, 11, 66]⟩ :=
  c8_fingerprint_roundtrip [18, 255, 11, 66] (by decide)

end Torsynth

namespace Torsynth

/-- With a relay under construction, every subsequent item whose keyword is
a relay keyword either fails or keeps the loop going, and each `"r"` item
commits exactly one relay: on success the output length is the accumulator
length plus the number of `"r"` items. -/
theorem collectRelays_some_length (rest : List Item) :
    ∀ (b : ShallowRelayBuilder) (acc out : List ShallowRelay),
    (∀ it ∈ rest, it.keyword ∈ (["r", "s", "v", "pr", "p", "w", "a"] : List String)) →
    collectRelays rest (some b) acc = Except.ok out →
    out.length = acc.length + (rest.filter (fun it => it.keyword = "r")).length := by
  induction rest with
  | nil =>
    intro b acc out _ h
    cases h
    simp
  | cons item rest ih =>
    intro b acc out hkw h
    have hmem := hkw item (List.mem_cons_self item rest)
    have hkwrest : ∀ it ∈ rest, it.keyword ∈ (["r", "s", "v", "pr", "p", "w", "a"] : List String) :=
      fun it hit => hkw it (List.mem_cons_of_mem item hit)
    simp only [List.mem_cons, List.not_mem_nil, or_false] at hmem
    rcases hmem with hk | hk | hk | hk | hk | hk | hk
    · -- "r": the pending relay is committed, a new one is started
      simp only [collectRelays, hk, String.reduceEq, reduceIte] at h
      cases hb : buildShallowRelay b with
      | error e => rw [hb] at h; simp [Except.map] at h
      | ok sr =>
        rw [hb] at h
        simp only [Except.map] at h
        cases hs : startRelay item with
        | error e => rw [hs] at h; simp at h
        | ok b2 =>
          rw [hs] at h
          have hlen := ih b2 (acc ++ [sr]) out hkwrest h
          simp only [List.length_append, List.length_cons, List.length_nil] at hlen
          simp [List.filter_cons, hk]
          omega
    · -- "s"
      simp only [collectRelays, hk, String.reduceEq, reduceIte] at h
      cases ha : applyS item b with
      | error e => rw [ha] at h; simp at h
      | ok b2 =>
        rw [ha] at h
        have hlen := ih b2 acc out hkwrest h
        simp [List.filter_cons, hk]
        omega
    · -- "v"
      simp only [collectRelays, hk, String.reduceEq, reduceIte] at h
      have hlen := ih (applyV item b) acc out hkwrest h
      simp [List.filter_cons, hk]
      omega
    · -- "pr"
      simp only [collectRelays, hk, String.reduceEq, reduceIte] at h
      cases ha : applyPr item b with
      | error e => rw [ha] at h; simp at h
      | ok b2 =>
        rw [ha] at h
        have hlen := ih b2 acc out hkwrest h
        simp [List.filter_cons, hk]
        omega
    · -- "p"
      simp only [collectRelays, hk, String.reduceEq, reduceIte] at h
      cases ha : applyP item b with
      | error e => rw [ha] at h; simp at h
      | ok b2 =>
        rw [ha] at h
        have hlen := ih b2 acc out hkwrest h
        simp [List.filter_cons, hk]
        omega
    · -- "w"
      simp only [collectRelays, hk, String.reduceEq, reduceIte] at h
      cases ha : applyW item b with
      | error e => rw [ha] at h; simp at h
      | ok b2 =>
        rw [ha] at h
        have hlen := ih b2 acc out hkwrest h
        simp [List.filter_cons, hk]
        omega
    · -- "a": skipped
      simp only [collectRelays, hk, String.reduceEq, reduceIte] at h
      have hlen := ih b acc out hkwrest h
      simp [List.filter_cons, hk]
      omega

/-- The first element surviving `skip_while(|x| x.keyword != "r")` has
keyword `"r"`. -/
theorem dropWhile_head_keyword (items : List Item) :
    ∀ it rest, items.dropWhile (fun x => x.keyword ≠ "r") = it :: rest → it.keyword = "r" := by
  induction items with
  | nil => intro it rest h; exact absurd h (by simp)
  | cons x xs ih =>
    intro it rest h
    by_cases hx : x.keyword = "r"
    · rw [List.dropWhile_cons] at h
      simp only [hx, String.reduceEq] at h
      simp at h
      rw [← h.1]
      exact hx
    · rw [List.dropWhile_cons] at h
      simp only [ne_eq, hx, not_false_eq_true, decide_True, if_true] at h
      exact ih it rest h

/-- C10: when the item sequence of a consensus document ends while a relay
is still being built — every item from the first `"r"` on carries one of
the relay keywords `r`, `s`, `v`, `pr`, `p`, `w`, `a`, so no unrecognised
keyword ever commits the pending relay — `ConsensusDocument::from_doc`
silently omits that final relay: whenever parsing succeeds, the returned
relay vector holds one relay fewer than the number of `"r"` items, because
a relay in progress is only committed by a following `"r"` item or an
unrecognised keyword, never at the end of the item list. -/
theorem c10_trailing_relay_dropped (items : List Item)
    (hkw : ∀ it ∈ items.dropWhile (fun x => x.keyword ≠ "r"),
      it.keyword ∈ (["r", "s", "v", "pr", "p", "w", "a"] : List String))
    (hne : items.dropWhile (fun x => x.keyword ≠ "r") ≠ []) :
    (consensusFromDoc items).map (fun doc => doc.relays.length + 1)
      = (consensusFromDoc items).map (fun _ =>
          ((items.dropWhile (fun x => x.keyword ≠ "r")).filter
            (fun it => it.keyword = "r")).length) := by
  unfold consensusFromDoc
  cases hdrop : items.dropWhile (fun x => x.keyword ≠ "r") with
  | nil => exact absurd hdrop hne
  | cons item rest =>
    have hkR : item.keyword = "r" := dropWhile_head_keyword items item rest hdrop
    rw [hdrop] at hkw
    cases hcol : collectRelays (item :: rest) none [] with
    | error e => simp [Except.map]
    | ok rs =>
      have hcol2 := hcol
      simp only [collectRelays, hkR, String.reduceEq, reduceIte] at hcol2
      cases hst : startRelay item with
      | error e => rw [hst] at hcol2; simp at hcol2
      | ok b =>
        rw [hst] at hcol2
        have hlen := collectRelays_some_length rest b [] rs
          (fun it hit => hkw it (List.mem_cons_of_mem item hit)) hcol2
        simp only [List.length_nil, Nat.zero_add] at hlen
        cases hw : collectWeights items with
        | error e => simp [Except.map]
        | ok ws =>
          cases hva : collectValidAfter items with
          | error e => simp [Except.map]
          | ok va =>
            simp only [Except.map]
            simp [List.filter_cons, hkR]
            omega

set_option maxRecDepth 100000 in
/-- Witness for C10: on `c10Items` — one complete relay followed by a
trailing `"r"` item — parsing succeeds and returns a single relay, although
the document contains two `"r"` items. -/
theorem c10_trailing_relay_dropped_witness :
    (consensusFromDoc c10Items).map (fun doc => doc.relays.length + 1) = Except.ok 2 := by
  have h := c10_trailing_relay_dropped c10Items (by decide) (by decide)
  rw [h]
  rfl

end Torsynth

namespace Torsynth

/-- The generation loop creates exactly `budget` new relays on success:
retries do not count, and every push does. -/
theorem scaleGenLoop_length (old : List Relay) (draws : List ScaleDraw) :
    ∀ (budget : Nat) (wf nd out1 out2 : List Relay),
    scaleGenLoop old draws budget wf nd = some (out1, out2) →
    out1.length + out2.length = wf.length + nd.length + budget := by
  induction draws with
  | nil =>
    intro budget wf nd out1 out2 h
    cases budget with
    | zero => cases h; simp
    | succ n => exact absurd h (by simp [scaleGenLoop])
  | cons d draws ih =>
    intro budget wf nd out1 out2 h
    cases budget with
    | zero => cases h; simp
    | succ n =>
      simp only [scaleGenLoop] at h
      cases hstep : scaleGenStep old d with
      | push r =>
        rw [hstep] at h
        have := ih n (wf ++ [r]) nd out1 out2 h
        simp only [List.length_append, List.length_cons, List.length_nil] at this
        omega
      | pushNeeding r =>
        rw [hstep] at h
        have := ih n wf (nd ++ [r]) out1 out2 h
        simp only [List.length_append, List.length_cons, List.length_nil] at this
        omega
      | retry =>
        rw [hstep] at h
        have := ih (n + 1) wf nd out1 out2 h
        omega
      | fail => rw [hstep] at h; cases h

/-- An all-255 digit list has the maximal value. -/
theorem leVal_all255 (l : List Nat) : (∀ d ∈ l, d = 255) → leVal l = 256 ^ l.length - 1 := by
  induction l with
  | nil => intro _; rfl
  | cons d rest ih =>
    intro h
    have hd := h d (List.mem_cons_self d rest)
    have hrest := ih (fun x hx => h x (List.mem_cons_of_mem d hx))
    have hpow : 1 ≤ 256 ^ rest.length := Nat.one_le_two_pow.trans (by
      exact Nat.pow_le_pow_left (by norm_num) rest.length)
    simp only [leVal, List.length_cons, pow_succ]
    omega

/-- Digit lists with digits below 256 stay below `256 ^ length`. -/
theorem leVal_lt (l : List Nat) : (∀ d ∈ l, d < 256) → leVal l < 256 ^ l.length := by
  induction l with
  | nil => intro _; simp [leVal]
  | cons d rest ih =>
    intro h
    have hd := h d (List.mem_cons_self d rest)
    have hrest := ih (fun x hx => h x (List.mem_cons_of_mem d hx))
    simp only [leVal, List.length_cons, pow_succ]
    omega

/-- `fpIncRev` on a non-maximal digit list succeeds, keeps the length and
bounds, and increments the little-endian value. -/
theorem fpIncRev_spec (l : List Nat) :
    (∀ d ∈ l, d < 256) → ¬(∀ d ∈ l, d = 255) →
    ∃ l2, fpIncRev l = some l2 ∧ l2.length = l.length ∧ (∀ d ∈ l2, d < 256) ∧
      leVal l2 = leVal l + 1 := by
  induction l with
  | nil => intro _ hne; exact absurd (fun d hd => absurd hd (List.not_mem_nil d)) hne
  | cons d rest ih =>
    intro hb hne
    by_cases hd : d < 255
    · refine ⟨(d + 1) :: rest, ?_, by simp, ?_, ?_⟩
      · simp [fpIncRev, hd]
      · intro x hx
        rcases List.mem_cons.mp hx with h1 | h1
        · omega
        · exact hb x (List.mem_cons_of_mem _ h1)
      · simp [leVal]; omega
    · have hd255 : d = 255 := by
        have := hb d (List.mem_cons_self d rest)
        omega
      have hnerest : ¬(∀ x ∈ rest, x = 255) := by
        intro hall
        exact hne (fun x hx => by
          rcases List.mem_cons.mp hx with h1 | h1
          · rw [h1]; exact hd255
          · exact hall x h1)
      obtain ⟨r2, hr2, hlen, hbnd, hval⟩ :=
        ih (fun x hx => hb x (List.mem_cons_of_mem d hx)) hnerest
      refine ⟨0 :: r2, ?_, by simp [hlen], ?_, ?_⟩
      · simp [fpIncRev, hd, hr2]
      · intro x hx
        rcases List.mem_cons.mp hx with h1 | h1
        · omega
        · exact hbnd x h1
      · simp only [leVal, hval, hd255]
        omega

/-- `FingerprintGenerator::inc` on a non-maximal state succeeds, keeps the
length and digit bounds, and increments the big-endian value. -/
theorem fpInc_spec (l : List Nat) :
    (∀ d ∈ l, d < 256) → beVal l + 1 < 256 ^ l.length →
    ∃ l2, fpInc l = some l2 ∧ l2.length = l.length ∧ (∀ d ∈ l2, d < 256) ∧
      beVal l2 = beVal l + 1 := by
  intro hb hlt
  have hbrev : ∀ d ∈ l.reverse, d < 256 := fun d hd => hb d (List.mem_reverse.mp hd)
  have hnall : ¬(∀ d ∈ l.reverse, d = 255) := by
    intro hall
    have := leVal_all255 l.reverse hall
    rw [List.length_reverse] at this
    unfold beVal at hlt
    omega
  obtain ⟨l2, hl2, hlen, hbnd, hval⟩ := fpIncRev_spec l.reverse hbrev hnall
  refine ⟨l2.reverse, ?_, by simp [hlen], ?_, ?_⟩
  · simp [fpInc, hl2]
  · intro x hx; exact hbnd x (List.mem_reverse.mp hx)
  · unfold beVal
    rw [List.reverse_reverse]
    exact hval

/-- The generator emits `n` pairwise-distinct fingerprints, each with a
value above the starting state's. -/
theorem fpSeq_spec (n : Nat) :
    ∀ (st : List Nat), (∀ d ∈ st, d < 256) → beVal st + n < 256 ^ st.length →
    ∃ fps, fpSeq st n = some fps ∧ fps.length = n ∧ fps.Nodup ∧
      ∀ f ∈ fps, beVal st < beVal f := by
  induction n with
  | zero => intro st _ _; exact ⟨[], rfl, rfl, List.nodup_nil, fun f hf => absurd hf (List.not_mem_nil f)⟩
  | succ n ih =>
    intro st hb hlt
    obtain ⟨st2, hst2, hlen, hbnd, hval⟩ := fpInc_spec st hb (by omega)
    obtain ⟨fps, hfps, hflen, hnd, hgt⟩ := ih st2 hbnd (by rw [hlen]; omega)
    refine ⟨st2 :: fps, ?_, by simp [hflen], ?_, ?_⟩
    · simp [fpSeq, hst2, hfps]
    · refine List.nodup_cons.mpr ⟨?_, hnd⟩
      intro hmem
      have := hgt st2 hmem
      omega
    · intro f hf
      rcases List.mem_cons.mp hf with h1 | h1
      · rw [h1]; omega
      · have := hgt f h1
        omega

/-- Customisation assigns the generator's fingerprint sequence, in order,
to the new relays. -/
theorem customizeLoop_spec (rs : List Relay) :
    ∀ (st : List Nat) (addrs : List Nat) (num : Nat) (out : List Relay),
    customizeLoop rs st addrs num = some out →
    ∃ fps, fpSeq st rs.length = some fps ∧
      out.map (fun r => r.fingerprint) = fps.map Fingerprint.mk := by
  induction rs with
  | nil =>
    intro st addrs num out h
    cases h
    exact ⟨[], rfl, rfl⟩
  | cons r rs ih =>
    intro st addrs num out h
    simp only [customizeLoop] at h
    cases hst : fpInc st with
    | none => rw [hst] at h; dsimp only at h; cases h
    | some st2 =>
      rw [hst] at h
      dsimp only at h
      cases addrs with
      | nil => dsimp only at h; cases h
      | cons a addrs2 =>
        dsimp only at h
        cases hc : customizeLoop rs st2 addrs2 (num + 1) with
        | none => rw [hc] at h; simp only [Option.map] at h; cases h
        | some rest =>
          rw [hc] at h
          simp only [Option.map] at h
          cases h
          obtain ⟨fps, hfps, hmap⟩ := ih st2 addrs2 (num + 1) rest hc
          refine ⟨st2 :: fps, ?_, ?_⟩
          · simp [fpSeq, hst, hfps]
          · simp [hmap]

/-- Inserting an absent key grows the map by one binding. -/
theorem alistInsert_length_fresh {α β : Type} [DecidableEq α] (m : List (α × β)) (k : α)
    (v : β) : alistLookup m k = none → (alistInsert m k v).length = m.length + 1 := by
  induction m with
  | nil => intro _; rfl
  | cons p rest ih =>
    intro h
    obtain ⟨a, b⟩ := p
    simp only [alistLookup] at h
    by_cases hak : a = k
    · rw [if_pos hak] at h; cases h
    · rw [if_neg hak] at h
      simp only [alistInsert, if_neg hak, List.length_cons, ih h]

/-- Inserting relays with pairwise-distinct, absent fingerprints grows the
map by exactly their number. -/
theorem insertNewRelays_length (rs : List Relay) :
    ∀ (m : List (Fingerprint × Relay)),
    (∀ r ∈ rs, alistLookup m r.fingerprint = none) →
    (rs.map (fun r => r.fingerprint)).Nodup →
    (insertNewRelays m rs).length = m.length + rs.length := by
  induction rs with
  | nil => intro m _ _; rfl
  | cons r rs ih =>
    intro m hfresh hnd
    have hr := hfresh r (List.mem_cons_self r rs)
    simp only [List.map_cons, List.nodup_cons] at hnd
    have hstep : insertNewRelays m (r :: rs) = insertNewRelays (alistInsert m r.fingerprint r) rs := rfl
    rw [hstep]
    have hfresh2 : ∀ x ∈ rs, alistLookup (alistInsert m r.fingerprint r) x.fingerprint = none := by
      intro x hx
      rw [alistLookup_alistInsert]
      rw [if_neg ?hne]
      · exact hfresh x (List.mem_cons_of_mem r hx)
      case hne =>
        intro heq
        exact hnd.1 (heq ▸ List.mem_map_of_mem (fun r => r.fingerprint) hx)
    rw [ih (alistInsert m r.fingerprint r) hfresh2 hnd.2,
      alistInsert_length_fresh m r.fingerprint r hr]
    simp only [List.length_cons]
    omega

/-- A list splits at a valid index into prefix, element and suffix. -/
theorem list_split_at {α : Type} (l : List α) (i : Nat) (x : α) (h : l[i]? = some x) :
    l = l.take i ++ x :: l.drop (i + 1) := by
  induction l generalizing i with
  | nil => cases h
  | cons a rest ih =>
    cases i with
    | zero =>
      simp only [List.getElem?_cons_zero] at h
      cases h
      simp
    | succ j =>
      simp only [List.getElem?_cons_succ] at h
      have := ih j h
      simp only [List.take_succ_cons, List.drop_succ_cons, List.cons_append]
      rw [← this]

/-- `List.set` at a valid index replaces exactly that element. -/
theorem list_set_split {α : Type} (l : List α) (i : Nat) (x a : α) (h : l[i]? = some x) :
    l.set i a = l.take i ++ a :: l.drop (i + 1) := by
  induction l generalizing i with
  | nil => cases h
  | cons b rest ih =>
    cases i with
    | zero => simp
    | succ j =>
      simp only [List.getElem?_cons_succ] at h
      simp only [List.set_cons_succ, List.take_succ_cons, List.drop_succ_cons, List.cons_append]
      rw [ih j h]

/-- The last element of `l1 ++ x :: l2` is the last element of `x :: l2`. -/
theorem getLast_append_cons {α : Type} (l1 : List α) (x : α) (l2 : List α) :
    (l1 ++ x :: l2).getLast? = (x :: l2).getLast? := by
  induction l1 with
  | nil => rfl
  | cons a rest ih =>
    rw [List.cons_append, ← ih]
    cases h : rest ++ x :: l2 with
    | nil => exact absurd h (by simp)
    | cons b bs => exact List.getLast?_cons_cons

/-- A list whose `getLast?` is `some a` is its `dropLast` followed by
`a`. -/
theorem getLast_eq_some_split {α : Type} (l : List α) (a : α) (h : l.getLast? = some a) :
    l = l.dropLast ++ [a] := by
  induction l with
  | nil => cases h
  | cons b bs ih =>
    cases bs with
    | nil =>
      cases h
      rfl
    | cons c cs =>
      rw [List.getLast?_cons_cons] at h
      have hrec := ih h
      show b :: c :: cs = (b :: (c :: cs).dropLast) ++ [a]
      rw [List.cons_append]
      exact congrArg (List.cons b) hrec

/-- `Vec::swap_remove` only reorders: the removed element together with the
remainder is a permutation of the original vector. -/
theorem swapRemove_perm {α : Type} (l : List α) (i : Nat) (x : α) (l2 : List α)
    (h : swapRemove l i = some (x, l2)) : (x :: l2).Perm l := by
  unfold swapRemove at h
  cases hx : l[i]? with
  | none => rw [hx] at h; cases h
  | some y =>
    rw [hx] at h
    cases hlast : l.getLast? with
    | none => rw [hlast] at h; cases h
    | some last =>
      rw [hlast] at h
      cases h
      have hsplit := list_split_at l i x hx
      have hset := list_set_split l i x last hx
      obtain ⟨T, hT⟩ : ∃ T, List.take i l = T := ⟨_, rfl⟩
      obtain ⟨D, hD⟩ : ∃ D, List.drop (i + 1) l = D := ⟨_, rfl⟩
      rw [hT, hD] at hsplit hset
      rw [hsplit, getLast_append_cons] at hlast
      cases D with
      | nil =>
        -- x is the last element
        cases hlast
        rw [hset, List.dropLast_concat]
        conv_rhs => rw [hsplit]
        exact (List.perm_append_singleton x T).symm
      | cons z zs =>
        rw [List.getLast?_cons_cons] at hlast
        have hzzs := getLast_eq_some_split (z :: zs) last hlast
        obtain ⟨E, hE⟩ : ∃ E, (z :: zs).dropLast = E := ⟨_, rfl⟩
        rw [hE] at hzzs
        have hset2 : l.set i last = (T ++ last :: E) ++ [last] := by
          rw [hset, hzzs]
          simp [List.cons_append, List.append_assoc]
        rw [hset2, List.dropLast_concat, hsplit, hzzs]
        refine List.Perm.trans List.perm_middle.symm ?_
        exact List.Perm.append_left T
          (List.Perm.cons x (List.perm_append_singleton last E).symm)

/-- Recruiting family members only moves relays: members plus remainder
permute the initial relays, and exactly `size` members are recruited. -/
theorem assembleFamilyMembers_spec (size : Nat) :
    ∀ (members needing : List Relay) (draws : List Nat) out nd2 ds2,
    assembleFamilyMembers size members needing draws = some (out, nd2, ds2) →
    (out ++ nd2).Perm (members ++ needing) ∧ out.length = members.length + size := by
  induction size with
  | zero =>
    intro members needing draws out nd2 ds2 h
    cases h
    exact ⟨List.Perm.refl _, by omega⟩
  | succ n ih =>
    intro members needing draws out nd2 ds2 h
    simp only [assembleFamilyMembers] at h
    cases draws with
    | nil => cases h
    | cons d draws2 =>
      try dsimp only at h
      split at h
      · cases h
      · rename_i m needing2 hsw
        obtain ⟨hperm, hlen⟩ := ih (members ++ [m]) needing2 draws2 out nd2 ds2 h
        constructor
        · refine hperm.trans ?_
          rw [List.append_assoc]
          refine List.Perm.append_left members ?_
          exact swapRemove_perm needing d m needing2 hsw
        · simp only [List.length_append, List.length_cons, List.length_nil] at hlen
          omega

/-- When the family sizes are positive and sum to the number of relays
needing a family, family construction consumes them exactly: the
fingerprints of the assembled relays permute theirs. -/
theorem assembleFamilies_fps_perm (sizes : List Nat) :
    ∀ (needing : List Relay) (draws : List Nat) (famId : Nat) out,
    (∀ s ∈ sizes, 1 ≤ s) →
    sizes.sum = needing.length →
    assembleFamilies sizes needing draws famId = some out →
    (out.map (fun r => r.fingerprint)).Perm (needing.map (fun r => r.fingerprint)) := by
  induction sizes with
  | nil =>
    intro needing draws famId out _ hsum h
    cases h
    have hsum0 : List.sum ([] : List Nat) = 0 := rfl
    have hlen0 : needing.length = 0 := by omega
    rw [List.eq_nil_of_length_eq_zero hlen0]
  | cons size sizes ih =>
    intro needing draws famId out hpos hsum h
    simp only [assembleFamilies] at h
    split at h
    · cases h
    · rename_i first hlast
      split at h
      · cases h
      · rename_i p members needing2 draws2 hasm
        split at h
        · cases h
        · rename_i rest hrec
          cases h
          have hneed := getLast_eq_some_split needing first hlast
          obtain ⟨hperm, hmlen⟩ := assembleFamilyMembers_spec (size - 1) [first]
            needing.dropLast draws members needing2 draws2 hasm
          have hpos1 : 1 ≤ size := hpos size (List.mem_cons_self size sizes)
          have hmlen2 : members.length = size := by
            simp only [List.length_cons, List.length_nil] at hmlen
            omega
          have hlens : needing2.length = needing.length - size := by
            have hpl := hperm.length_eq
            simp only [List.length_append, List.length_cons, List.length_nil] at hpl
            have hdl : needing.dropLast.length = needing.length - 1 := by
              rw [hneed]
              simp
            omega
          have hsum2 : sizes.sum = needing2.length := by
            simp only [List.sum_cons] at hsum
            omega
          have hrecperm := ih needing2 draws2 (famId + 1) rest
            (fun s hs => hpos s (List.mem_cons_of_mem size hs)) hsum2 hrec
          have hmapfam : (fun r => Relay.fingerprint r) ∘
              (fun r => { r with family := some famId }) = fun r : Relay => r.fingerprint := rfl
          rw [List.map_append, List.map_map, hmapfam]
          have h3 := (hperm.trans
            (@List.perm_append_comm Relay [first] needing.dropLast)).map
            (fun r : Relay => r.fingerprint)
          simp only [List.map_append] at h3
          have h4 : needing.map (fun r => r.fingerprint)
              = needing.dropLast.map (fun r => r.fingerprint) ++
                [first].map (fun r => r.fingerprint) := by
            conv_lhs => rw [hneed]
            rw [List.map_append]
          rw [h4]
          exact (List.Perm.append_left _ hrecperm).trans h3

/-- The sampled family sizes sum to the number of relays needing a
family (restarts preserve the invariant). -/
theorem sampleFamilySizesLoop_sum (sizes : List Nat) (total : Nat) (draws : List Nat) :
    ∀ (remaining : Nat) (acc out : List Nat),
    acc.sum + remaining = total →
    sampleFamilySizesLoop sizes total draws remaining acc = some out →
    out.sum = total := by
  induction draws with
  | nil => intro remaining acc out _ h; cases h
  | cons d draws ih =>
    intro remaining acc out hinv h
    simp only [sampleFamilySizesLoop] at h
    split at h
    · cases h
    · rename_i size hsize
      split at h
      · exact ih total [] out (by simp) h
      · split at h
        · rename_i hgt heq
          cases h
          simp only [List.sum_append, List.sum_cons, List.sum_nil]
          omega
        · rename_i hgt hne
          refine ih (remaining - size) (acc ++ [size]) out ?_ h
          simp only [List.sum_append, List.sum_cons, List.sum_nil]
          omega

/-- Every sampled family size is one of the consensus's family sizes. -/
theorem sampleFamilySizesLoop_mem (sizes : List Nat) (total : Nat) (draws : List Nat) :
    ∀ (remaining : Nat) (acc out : List Nat),
    (∀ s ∈ acc, s ∈ sizes) →
    sampleFamilySizesLoop sizes total draws remaining acc = some out →
    ∀ s ∈ out, s ∈ sizes := by
  induction draws with
  | nil => intro remaining acc out _ h; cases h
  | cons d draws ih =>
    intro remaining acc out hacc h
    simp only [sampleFamilySizesLoop] at h
    split at h
    · cases h
    · rename_i size hsize
      have hsmem : size ∈ sizes := by
        have := List.getElem?_mem hsize
        exact this
      split at h
      · exact ih total [] out (by simp) h
      · split at h
        · cases h
          intro s hs
          rcases List.mem_append.mp hs with h1 | h1
          · exact hacc s h1
          · rcases List.mem_cons.mp h1 with h2 | h2
            · rw [h2]; exact hsmem
            · exact absurd h2 (List.not_mem_nil s)
        · refine ih (remaining - size) (acc ++ [size]) out ?_ h
          intro s hs
          rcases List.mem_append.mp hs with h1 | h1
          · exact hacc s h1
          · rcases List.mem_cons.mp h1 with h2 | h2
            · rw [h2]; exact hsmem
            · exact absurd h2 (List.not_mem_nil s)

/-- C3 (amended): provided no fingerprint the generator will emit collides
with an existing relay's fingerprint, the relay count behaves as the spec
claims whenever the randomness lets `scale_horizontally` finish: the
generation loop creates exactly `budget = round(N * s) - N` new relays
(failed AS-restricted family draws retry without counting), each gets a
fresh, pairwise-distinct counter fingerprint, family construction only
moves relays, and the final insertion (keyed by the new fingerprints)
grows the relay map by exactly `budget`.  Without the freshness hypothesis
the insertion can overwrite an existing relay: the collision check in the
source is commented out. -/
theorem c3_horizontal_count_amended (c : Consensus) (budget : Nat)
    (genDraws : List ScaleDraw) (addrDraws sizeDraws memberDraws : List Nat)
    (famBase : Nat) (out : Consensus)
    (hbudget : budget < 256 ^ 40)
    (hsizes : ∀ p ∈ c.family_sizes, 1 ≤ p.1)
    (hfresh : ∀ f ∈ (fpSeq fpGenInit budget).getD [], alistLookup c.relays ⟨f⟩ = none)
    (h : scaleHorizontally c budget genDraws addrDraws sizeDraws memberDraws famBase
      = some out) :
    out.relays.length = c.relays.length + budget := by
  unfold scaleHorizontally at h
  split at h
  · cases h
  · rename_i p withFam needing hgen
    dsimp only at h
    split at h
    · cases h
    · rename_i customized hcust
      split at h
      · cases h
      · rename_i sizes hsz
        split at h
        · cases h
        · rename_i assembled hasm
          cases h
          -- generation loop: budget relays were generated
          have hgenlen := scaleGenLoop_length (c.relays.map Prod.snd) genDraws budget
            [] [] withFam needing hgen
          simp only [List.length_nil] at hgenlen
          have hlen1 : (withFam ++ needing).length = budget := by
            rw [List.length_append]
            omega
          -- customization: the fingerprints are the generator sequence
          obtain ⟨fps, hfpseq, hmap⟩ := customizeLoop_spec (withFam ++ needing)
            fpGenInit addrDraws 1 customized hcust
          rw [hlen1] at hfpseq
          -- counter properties
          have hb0 : ∀ d ∈ fpGenInit, d < 256 := by decide
          have hbe0 : beVal fpGenInit = 0 := by decide
          have hlen40 : fpGenInit.length = 40 := by decide
          obtain ⟨fps2, hfps2, hfl, hnd, _⟩ := fpSeq_spec budget fpGenInit hb0
            (by rw [hbe0, hlen40]; omega)
          rw [hfpseq] at hfps2
          cases hfps2
          -- lengths
          have hclen : customized.length = budget := by
            have := congrArg List.length hmap
            simp only [List.length_map] at this
            omega
          have hsplitc : customized.take withFam.length ++ customized.drop withFam.length
              = customized := List.take_append_drop _ _
          -- keys of the inserted relays are a permutation of the generated fps
          have hmapsplit : (customized.take withFam.length).map (fun r => r.fingerprint) ++
              (customized.drop withFam.length).map (fun r => r.fingerprint)
              = fps.map Fingerprint.mk := by
            rw [← List.map_append, hsplitc, hmap]
          -- sizes sum
          have hsum : sizes.sum = (customized.drop withFam.length).length ∧
              ∀ s ∈ sizes, 1 ≤ s := by
            by_cases hemp : (customized.drop withFam.length).isEmpty
            · rw [if_pos hemp] at hsz
              cases hsz
              have : customized.drop withFam.length = [] := by
                cases hd : customized.drop withFam.length with
                | nil => rfl
                | cons a as => rw [hd] at hemp; simp [List.isEmpty] at hemp
              rw [this]
              exact ⟨rfl, fun s hs => absurd hs (List.not_mem_nil s)⟩
            · rw [if_neg hemp] at hsz
              constructor
              · exact sampleFamilySizesLoop_sum (c.family_sizes.map Prod.fst)
                  (customized.drop withFam.length).length sizeDraws
                  (customized.drop withFam.length).length [] sizes (by simp) hsz
              · intro s hs
                have hmem := sampleFamilySizesLoop_mem (c.family_sizes.map Prod.fst)
                  (customized.drop withFam.length).length sizeDraws
                  (customized.drop withFam.length).length [] sizes
                  (fun x hx => absurd hx (List.not_mem_nil x)) hsz s hs
                rcases List.mem_map.mp hmem with ⟨q, hq, hq2⟩
                rw [← hq2]
                exact hsizes q hq
          -- assembled keys permute the keys of the relays needing a family
          have hasmperm := assembleFamilies_fps_perm sizes
            (customized.drop withFam.length) memberDraws famBase assembled
            hsum.2 hsum.1 hasm
          -- the keys of all inserted relays permute the generated fingerprints
          have hkeys : ((customized.take withFam.length ++ assembled).map
              (fun r => r.fingerprint)).Perm (fps.map Fingerprint.mk) := by
            rw [List.map_append, ← hmapsplit]
            exact List.Perm.append_left _ hasmperm
          -- Nodup and freshness transfer along the permutation
          have hmkinj : Function.Injective Fingerprint.mk := by
            intro a b hab
            cases hab
            rfl
          have hndmk : (fps.map Fingerprint.mk).Nodup := hnd.map hmkinj
          have hndkeys : ((customized.take withFam.length ++ assembled).map
              (fun r => r.fingerprint)).Nodup := (hkeys.nodup_iff).mpr hndmk
          have hfresh2 : ∀ r ∈ customized.take withFam.length ++ assembled,
              alistLookup c.relays r.fingerprint = none := by
            intro r hr
            have hmem : r.fingerprint ∈ (customized.take withFam.length ++ assembled).map
                (fun r => r.fingerprint) := List.mem_map_of_mem _ hr
            have hmem2 : r.fingerprint ∈ fps.map Fingerprint.mk := (hkeys.mem_iff).mp hmem
            rcases List.mem_map.mp hmem2 with ⟨f, hf, hf2⟩
            rw [← hf2]
            refine hfresh f ?_
            rw [hfpseq]
            exact hf
          -- count the insertions
          have hinslen := insertNewRelays_length (customized.take withFam.length ++ assembled)
            c.relays hfresh2 hndkeys
          have hasmlen : assembled.length = (customized.drop withFam.length).length := by
            have := hasmperm.length_eq
            simp only [List.length_map] at this
            exact this
          have htdlen : (customized.take withFam.length).length +
              (customized.drop withFam.length).length = budget := by
            have := congrArg List.length hsplitc
            simp only [List.length_append] at this
            omega
          show (insertNewRelays c.relays (customized.take withFam.length ++ assembled)).length
            = c.relays.length + budget
          rw [hinslen, List.length_append]
          omega



set_option maxRecDepth 100000 in
/-- C3 (counterexample): the claim's unconditional count does not hold.
With one relay whose fingerprint equals the first counter fingerprint the
generator emits, scaling by `s = 2` (budget `round(1 * 2) - 1 = 1`, one
non-family draw) terminates but the new relay's insertion overwrites the
existing entry: the consensus ends with 1 relay, not `round(N * s) = 2`.
The uniqueness loop guarding against this in `Customizer::customize_relay`
is commented out in the source. -/
theorem c3_horizontal_count_counterexample :
    specNumRelaysAfter 1 2 1 = 2 ∧
    (scaleHorizontally c3Consensus (specNumRelaysAfter 1 2 1 - 1) c3Draws [7] [] [] 0).map
        (fun c => c.relays.length) = some 1 ∧
    (scaleHorizontally c3Consensus (specNumRelaysAfter 1 2 1 - 1) c3Draws [7] [] [] 0).map
        (fun c => c.relays.length) ≠ some (specNumRelaysAfter 1 2 1) := by
  refine ⟨rfl, rfl, ?_⟩
  decide

set_option maxRecDepth 100000 in
/-- Witness for the amended C3: a single relay with a non-colliding
fingerprint scaled with budget 1 ends with exactly 2 relays. -/
theorem c3_horizontal_count_amended_witness :
    (scaleHorizontally c3FreshConsensus 1 c3Draws [7] [] [] 0).map
      (fun c => c.relays.length) = some 2 := by
  cases hsc : scaleHorizontally c3FreshConsensus 1 c3Draws [7] [] [] 0 with
  | none => exact absurd hsc (by decide)
  | some o =>
    have hlen := c3_horizontal_count_amended c3FreshConsensus 1 c3Draws [7] [] [] 0 o
      (by decide) (by decide) (by decide) hsc
    simp only [Option.map]
    rw [hlen]
    rfl

end Torsynth
